import Mathlib

/-!
Verification of the shader-graph core of the repository: the dependency
resolver (GraphTraverser), the code generator (ShaderGraphEditor), the
dialect translator (shader_lang.h) and the parameter setter.  All
definitions are shallow embeddings of the C++ code in
src/include/shader_graph.h, src/include/shader_nodes.h and
src/include/shader_lang.h.  Node-identifier sets and maps of the C++ are
modelled as lists; the floating-point payloads of constant nodes are
modelled by their already-formatted literal text (the C++ prints them with
a fixed three-digit format before they ever reach the generator).
-/

namespace ShaderGraph

/-- ShaderDataType from shader_nodes.h. -/
inductive ShaderDataType where
  | float
  | vec2
  | vec3
  | vec4
deriving DecidableEq, Repr

/-- ShaderNodeBase::typeToGLSL. -/
def typeToGLSL : ShaderDataType → String
  | .float => "float"
  | .vec2 => "vec2"
  | .vec3 => "vec3"
  | .vec4 => "vec4"

/-- UniformParameter (name, display name, value type, current value).
Modelled from the spec: the struct itself is only forward-declared in the
sources under src/ (app.h); spec section 3 lists its fields.  The current
value (a float or a 3-vector in the C++) is modelled as a list of
rationals. -/
structure UniformParameter where
  name : String
  displayName : String
  type : ShaderDataType
  value : List Rat
deriving DecidableEq, Repr

/-- The node kinds of shader_nodes.h.  Floating-point payloads
(FloatNode::m_value, ColorNode::m_color, ClampNode::m_min/m_max) are
carried as their fixed-three-digit formatted text, which is the only form
in which the C++ ever uses them during generation.  The param kind is
modelled from the spec (FloatParameterNode / Vec3ParameterNode are not
under src/). -/
inductive NodeKind where
  | float (lit : String)
  | color (r g b : String)
  | time
  | position
  | normal
  | add
  | multiply
  | subtract
  | divide
  | sin
  | cos
  | abs
  | mix
  | clamp (mn mx : String)
  | makeVec3
  | splitVec3
  | fresnel
  | output
  | param (p : UniformParameter)
deriving DecidableEq, Repr

/-- Input-pin names of each node kind, in declared (constructor) order;
these are the pins iterated by BaseNode::getIns(). -/
def kindInNames : NodeKind → List String
  | .float _ => []
  | .color .. => []
  | .time => []
  | .position => []
  | .normal => []
  | .add => ["A", "B"]
  | .multiply => ["A", "B"]
  | .subtract => ["A", "B"]
  | .divide => ["A", "B"]
  | .sin => ["X"]
  | .cos => ["X"]
  | .abs => ["X"]
  | .mix => ["A", "B", "T"]
  | .clamp .. => ["X"]
  | .makeVec3 => ["X", "Y", "Z"]
  | .splitVec3 => ["Vec3"]
  | .fresnel => ["Power"]
  | .output => ["Color", "Alpha"]
  | .param _ => []

/-- Output-pin names of each node kind, in declared order (getOuts()).
The param kind's single uniform output is modelled from the spec. -/
def kindOutNames : NodeKind → List String
  | .float _ => ["Value"]
  | .color .. => ["RGB"]
  | .time => ["Time"]
  | .position => ["XYZ", "X", "Y", "Z"]
  | .normal => ["Normal"]
  | .add => ["Result"]
  | .multiply => ["Result"]
  | .subtract => ["Result"]
  | .divide => ["Result"]
  | .sin => ["Result"]
  | .cos => ["Result"]
  | .abs => ["Result"]
  | .mix => ["Result"]
  | .clamp .. => ["Result"]
  | .makeVec3 => ["Vec3"]
  | .splitVec3 => ["X", "Y", "Z"]
  | .fresnel => ["Factor"]
  | .output => []
  | .param _ => ["Value"]

/-- The isSourceNode override of each node kind (ShaderNodeBase returns
false; the constant and input nodes override it to true).  True for the
param kind by the spec (a parameter node has no inputs). -/
def isSourceNode : NodeKind → Bool
  | .float _ => true
  | .color .. => true
  | .time => true
  | .position => true
  | .normal => true
  | .param _ => true
  | _ => false

/-- A node of the graph: unique id, kind, and the incoming links of its
input pins.  A links entry (pinName, (srcNodeId, srcPinName)) models a
connected input pin; an input pin with no entry is unconnected (an input
pin has at most one incoming link). -/
structure GNode where
  id : Nat
  kind : NodeKind
  links : List (String × Nat × String)
deriving DecidableEq, Repr

/-- The node set of ImFlow::ImNodeFlow, in iteration order. -/
structure Graph where
  nodes : List GNode
deriving DecidableEq, Repr

/-- All node ids of the graph. -/
def idsOf (g : Graph) : List Nat := g.nodes.map (fun n => n.id)

/-- Resolve a node id, as the C++ does through the node-flow's node table. -/
def lookupNode (g : Graph) (i : Nat) : Option GNode :=
  g.nodes.find? (fun n => n.id == i)

/-- The incoming link of one named input pin (pin->getLink()). -/
def linkOf (n : GNode) (pin : String) : Option (Nat × String) :=
  (n.links.find? (fun e => e.1 == pin)).map (fun e => e.2)

/-- The source-node ids of all connected input pins of node i, in declared
pin order: exactly the nodes visited by the for-loops over getIns() in
collectConnectedNodes and topologicalSortDFS. -/
def deps (g : Graph) (i : Nat) : List Nat :=
  match lookupNode g i with
  | none => []
  | some n => (kindInNames n.kind).filterMap (fun q => (linkOf n q).map (fun e => e.1))

/-- The visited set and result vector threaded through
GraphTraverser::topologicalSortDFS. -/
structure St where
  visited : List Nat
  result : List Nat
deriving DecidableEq, Repr

/-- GraphTraverser::topologicalSortDFS.  The C++ recursion is modelled
with a fuel argument; every fuel at least (number of nodes + 1) yields the
same value (proved below), which is the termination argument of the C++
code.  The inStack set holds the ancestors of the current call; a node
already on the stack (a cycle edge) or already visited is skipped. -/
def sortDFS (g : Graph) : Nat → List Nat → Nat → St → St
  | 0, _, _, s => s
  | fuel + 1, inStack, i, s =>
    if i ∈ inStack then s
    else if i ∈ s.visited then s
    else
      let s' := (deps g i).foldl (fun acc d => sortDFS g fuel (i :: inStack) d acc) s
      ⟨i :: s'.visited, s'.result ++ [i]⟩

/-- GraphTraverser::collectConnectedNodes: pre-order DFS from the output
node following input links backward; returns (visited, collected). -/
def collectGo (g : Graph) : Nat → (List Nat × List Nat) → Nat → (List Nat × List Nat)
  | 0, vs, _ => vs
  | fuel + 1, vs, i =>
    if i ∈ vs.1 then vs
    else (deps g i).foldl (fun p d => collectGo g fuel p d) (i :: vs.1, vs.2 ++ [i])

/-- The loop of GraphTraverser::topologicalSort over the collected nodes. -/
def sortSeeds (g : Graph) (fuel : Nat) (seeds : List Nat) (s : St) : St :=
  seeds.foldl (fun acc i => if i ∈ acc.visited then acc else sortDFS g fuel [] i acc) s

/-- GraphTraverser::topologicalSort with an explicit fuel bound on the
recursion depth of both DFS passes. -/
def topologicalSortFuel (g : Graph) (out : Nat) (fuel : Nat) : List Nat :=
  (sortSeeds g fuel (collectGo g fuel ([], []) out).2 ⟨[], []⟩).result

/-- GraphTraverser::topologicalSort: node ids in dependency order, sources
first.  Fuel (number of nodes + 1) always suffices (proved below). -/
def topologicalSort (g : Graph) (out : Nat) : List Nat :=
  topologicalSortFuel g out (g.nodes.length + 1)

/-- The varMap of generateShaderBody: (nodeUID, pinName) to the variable
name or inline expression of that output pin.  Newest entry first; lookup
takes the first match (each key is written at most once during a pass). -/
abbrev VarMap : Type := List ((Nat × String) × String)

/-- Lookup in the varMap. -/
def vmLookup (vm : VarMap) (i : Nat) (pin : String) : Option String :=
  (vm.find? (fun e => e.1.1 == i && e.1.2 == pin)).map (fun e => e.2)

/-- The getInputVar helper of shader_nodes.h: the text a node uses for one
of its input pins — the varMap entry of the link's source pin when the pin
is connected and the source was already emitted, else the call site's
default literal. -/
def getInputVar (n : GNode) (pin : String) (vm : VarMap) (dflt : String) : String :=
  match linkOf n pin with
  | none => dflt
  | some sp =>
    match vmLookup vm sp.1 sp.2 with
    | some v => v
    | none => dflt

/-- The generateExpression override of each node kind (shader_nodes.h).
Default literals are the ones each call site passes to getInputVar, which
are the declared pin defaults of the constructors. -/
def generateExpression (n : GNode) (pin : String) (vm : VarMap) : String :=
  match n.kind with
  | .float lit => lit
  | .color r gc b => "vec3(" ++ r ++ ", " ++ gc ++ ", " ++ b ++ ")"
  | .time => "time"
  | .position =>
    if pin == "XYZ" then "FragPos"
    else if pin == "X" then "FragPos.x"
    else if pin == "Y" then "FragPos.y"
    else if pin == "Z" then "FragPos.z"
    else "FragPos"
  | .normal => "normalize(Normal)"
  | .add => "(" ++ getInputVar n "A" vm "0.0" ++ " + " ++ getInputVar n "B" vm "0.0" ++ ")"
  | .multiply => "(" ++ getInputVar n "A" vm "1.0" ++ " * " ++ getInputVar n "B" vm "1.0" ++ ")"
  | .subtract => "(" ++ getInputVar n "A" vm "0.0" ++ " - " ++ getInputVar n "B" vm "0.0" ++ ")"
  | .divide => "(" ++ getInputVar n "A" vm "1.0" ++ " / " ++ getInputVar n "B" vm "1.0" ++ ")"
  | .sin => "sin(" ++ getInputVar n "X" vm "0.0" ++ ")"
  | .cos => "cos(" ++ getInputVar n "X" vm "0.0" ++ ")"
  | .abs => "abs(" ++ getInputVar n "X" vm "0.0" ++ ")"
  | .mix =>
    "mix(" ++ getInputVar n "A" vm "0.0" ++ ", " ++ getInputVar n "B" vm "1.0"
      ++ ", " ++ getInputVar n "T" vm "0.5" ++ ")"
  | .clamp mn mx => "clamp(" ++ getInputVar n "X" vm "0.0" ++ ", " ++ mn ++ ", " ++ mx ++ ")"
  | .makeVec3 =>
    "vec3(" ++ getInputVar n "X" vm "0.0" ++ ", " ++ getInputVar n "Y" vm "0.0"
      ++ ", " ++ getInputVar n "Z" vm "0.0" ++ ")"
  | .splitVec3 =>
    let v := getInputVar n "Vec3" vm "vec3(0.0)"
    if pin == "X" then "(" ++ v ++ ").x"
    else if pin == "Y" then "(" ++ v ++ ").y"
    else if pin == "Z" then "(" ++ v ++ ").z"
    else "(" ++ v ++ ").x"
  | .fresnel =>
    "pow(1.0 - max(dot(normalize(Normal), normalize(viewPos - FragPos)), 0.0), "
      ++ getInputVar n "Power" vm "2.0" ++ ")"
  | .output => "0.0"
  | .param p => p.name

/-- The getOutputType override of each node kind.  MultiplyNode inspects
the declared output type of whatever feeds each of its inputs at
generation time, which recurses through the graph; the recursion carries
fuel (the C++ would not terminate on a multiply cycle, which cannot be
produced by generation-relevant graphs). -/
def getOutputType (g : Graph) : Nat → GNode → String → ShaderDataType
  | 0, _, _ => .float
  | fuel + 1, n, pin =>
    match n.kind with
    | .float _ => .float
    | .color .. => .vec3
    | .time => .float
    | .position => if pin == "XYZ" then .vec3 else .float
    | .normal => .vec3
    | .multiply =>
      let srcIsVec3 := fun (q : String) =>
        match linkOf n q with
        | none => false
        | some sp =>
          match lookupNode g sp.1 with
          | none => false
          | some m => getOutputType g fuel m sp.2 == ShaderDataType.vec3
      if srcIsVec3 "A" || srcIsVec3 "B" then .vec3 else .float
    | .makeVec3 => .vec3
    | .param p => p.type
    | _ => .float

/-- One emitted declaration of the generation loop: the statement
"    ty vK = expr;\n" with the variable index kept explicit. -/
structure Decl where
  idx : Nat
  ty : String
  expr : String
deriving DecidableEq, Repr

/-- The sequential variable name "v" ++ counter of generateShaderBody. -/
def varNameOf (k : Nat) : String := "v" ++ toString k

/-- The state of the emission loop of generateShaderBody: emitted
declarations, the varMap, and the variable counter. -/
structure GenSt where
  decls : List Decl
  vm : VarMap
  counter : Nat

/-- The body of the inner loop of generateShaderBody over one output pin:
inline source nodes with at most one consumer, otherwise allocate a fresh
variable and emit a typed declaration. -/
def processPin (g : Graph) (oc : Nat → Nat) (n : GNode) (st : GenSt) (pin : String) : GenSt :=
  let expr := generateExpression n pin st.vm
  if isSourceNode n.kind ∧ oc n.id ≤ 1 then
    { st with vm := ((n.id, pin), expr) :: st.vm }
  else
    { decls := st.decls ++ [⟨st.counter, typeToGLSL (getOutputType g (g.nodes.length + 1) n pin), expr⟩],
      vm := ((n.id, pin), varNameOf st.counter) :: st.vm,
      counter := st.counter + 1 }

/-- One iteration of the emission loop of generateShaderBody: the output
node is skipped (handled specially at the end); other nodes emit every
output pin in declared order. -/
def processNode (g : Graph) (out : Nat) (oc : Nat → Nat) (st : GenSt) (i : Nat) : GenSt :=
  if i = out then st
  else
    match lookupNode g i with
    | none => st
    | some n => (kindOutNames n.kind).foldl (processPin g oc n) st

/-- The emission loop of generateShaderBody over a list of node ids. -/
def genFold (g : Graph) (out : Nat) (oc : Nat → Nat) (st : GenSt) (l : List Nat) : GenSt :=
  l.foldl (processNode g out oc) st

/-- ShaderGraphEditor::countOutputConnections: for node x, how many
connected input pins of the sorted nodes take their value from x. -/
def outCount (g : Graph) (sorted : List Nat) (x : Nat) : Nat :=
  (sorted.map (fun i => (deps g i).count x)).sum

/-- The final state of the emission loop of generateShaderBody. -/
def genState (g : Graph) (out : Nat) : GenSt :=
  genFold g out (outCount g (topologicalSort g out)) ⟨[], [], 0⟩ (topologicalSort g out)

/-- Rendering of one emitted declaration line. -/
def renderDecl (d : Decl) : String :=
  "    " ++ d.ty ++ " " ++ varNameOf d.idx ++ " = " ++ d.expr ++ ";\n"

/-- OutputNode::generateCodeFromVarMap: the final statements, resolving
the Color and Alpha pins through the varMap with their declared defaults. -/
def generateCodeFromVarMap (n : GNode) (vm : VarMap) : String :=
  "    vec3 finalColor = " ++ getInputVar n "Color" vm "vec3(1.0, 0.5, 0.2)" ++ ";\n"
    ++ "    float finalAlpha = " ++ getInputVar n "Alpha" vm "1.0" ++ ";\n"
    ++ "    FragColor = vec4(finalColor, finalAlpha);\n"

/-- The output node object m_outputNode; it is always a member of the node
flow in the C++ (created in the constructor), so the default is never
reached on graphs the editor can produce. -/
def outNodeOf (g : Graph) (out : Nat) : GNode :=
  (lookupNode g out).getD ⟨out, .output, []⟩

/-- ShaderGraphEditor::generateShaderBody: the declaration lines in
emission order, a blank line when any variable was allocated, then the
output node's final statements. -/
def generateShaderBody (g : Graph) (out : Nat) : String :=
  let st := genState g out
  String.join (st.decls.map renderDecl)
    ++ (if st.counter > 0 then "\n" else "")
    ++ generateCodeFromVarMap (outNodeOf g out) st.vm

/-- The fixed shader header of generateFragmentShader up to and including
the user-parameter uniform block and the opening of main. -/
def shaderHeader (params : List UniformParameter) : String :=
  "#version 330 core\nout vec4 FragColor;\n\nin vec3 FragPos;\nin vec3 Normal;\nin vec2 TexCoord;\n\n// Built-in uniforms\nuniform float time;\nuniform vec3 lightPos;\nuniform vec3 viewPos;\nuniform vec3 lightColor;\nuniform vec3 objectColor;\n\n"
    ++ String.join (params.map (fun p =>
        "// User parameter: " ++ p.displayName ++ "\n"
          ++ "uniform " ++ typeToGLSL p.type ++ " " ++ p.name ++ ";\n"))
    ++ "\nvoid main()\n\x7b\n"

/-- The defensive fallback line of generateFragmentShader for a missing
output node. -/
def missingOutputLine : String :=
  "    FragColor = vec4(1.0, 0.0, 1.0, 1.0); // Error: No output node\n"

/-- ShaderGraphEditor::generateFragmentShader: header, then either the
graph-derived body (when the output node exists) or the fixed fallback
line, then the closing brace. -/
def generateFragmentShader (params : List UniformParameter) (g : Graph) (mOut : Option Nat) : String :=
  shaderHeader params
    ++ (match mOut with
        | some o => generateShaderBody g o
        | none => missingOutputLine)
    ++ "\x7d\n"

/-- Removal of the link into one input pin.  Modelled from the spec:
removeLink(dstNodeId, dstPin) is performed by the ImNodeFlow editor layer,
which is not under src/; it erases the single incoming link of that pin. -/
def removeLink (n : GNode) (pin : String) : GNode :=
  { n with links := n.links.filter (fun e => !(e.1 == pin)) }

/-- isParameterNode of a node.  Modelled from the spec: parameter-kind
nodes (FloatParameterNode, Vec3ParameterNode) are not under src/; they are
exactly the nodes carrying a user-exposed uniform parameter. -/
def isParameterNode : NodeKind → Bool
  | .param _ => true
  | _ => false

/-- getUniformParameter of a parameter node.  Modelled from the spec: it
reads (name, display name, type, current value) off the node. -/
def getUniformParameter : NodeKind → UniformParameter
  | .param p => p
  | _ => ⟨"", "", .float, []⟩

/-- setUniformValue of a parameter node.  Modelled from the spec: the
setter pushes the new current value into the owning node. -/
def setUniformValue (n : GNode) (p : UniformParameter) : GNode :=
  match n.kind with
  | .param q => { n with kind := .param { q with value := p.value } }
  | _ => n

/-- The loop body of ShaderGraphEditor::setParameterValue: scan the nodes
in iteration order; at the first parameter node whose uniform name matches,
push the new value and break. -/
def setParamGo (name : String) (p : UniformParameter) : List GNode → List GNode
  | [] => []
  | n :: rest =>
    if isParameterNode n.kind ∧ (getUniformParameter n.kind).name = name then
      setUniformValue n p :: rest
    else
      n :: setParamGo name p rest

/-- ShaderGraphEditor::setParameterValue. -/
def setParameterValue (g : Graph) (name : String) (p : UniformParameter) : Graph :=
  ⟨setParamGo name p g.nodes⟩

/-- ShaderGraphEditor::collectParameters: every parameter node of the
whole graph, in iteration order. -/
def collectParameters (g : Graph) : List UniformParameter :=
  g.nodes.filterMap (fun n =>
    match n.kind with
    | .param p => some p
    | _ => none)

/-- The per-claim fan-out of one output pin over the whole graph: the
number of input pins of any node whose incoming link is (x, pin).  This is
the claims' notion of "downstream input pins"; the generator's own count
is outCount. -/
def fanOutPin (g : Graph) (x : Nat) (pin : String) : Nat :=
  (g.nodes.map (fun n =>
    ((kindInNames n.kind).filter (fun q => linkOf n q == some (x, pin))).length)).sum

/-- A word character of the ECMAScript regex \b class: [A-Za-z0-9_]. -/
def isWordChar (c : Char) : Bool := c.isAlphanum || c == '_'

/-- A whitespace character of the ECMAScript regex \s class (the members
that can occur in shader text). -/
def isSpaceCh (c : Char) : Bool :=
  c == ' ' || c == '\t' || c == '\n' || c == '\r' || c == '\x0b' || c == '\x0c'

/-- Match a literal at the head of the text, returning the rest. -/
def takeLit : List Char → List Char → Option (List Char)
  | [], s => some s
  | _ :: _, [] => none
  | a :: fr, b :: s => if a == b then takeLit fr s else none

/-- Whether a word boundary holds between the last matched character and
the following text (end of input counts as a non-word position). -/
def wordEndOk (lastc : Char) : List Char → Bool
  | [] => isWordChar lastc
  | d :: _ => isWordChar lastc != isWordChar d

/-- The scan of replaceWord (std::regex_replace with pattern
\bfrom\b): at each position, replace a whole-word occurrence of the
literal and continue after it; pw records whether the previous input
character is a word character (false at the start of the text). -/
def replaceWordGo (fr tg : List Char) (frHead frLast : Char) : Nat → Bool → List Char → List Char
  | 0, _, s => s
  | _ + 1, _, [] => []
  | fuel + 1, pw, c :: cs =>
    match takeLit fr (c :: cs) with
    | some rest =>
      if ((pw != isWordChar frHead) && wordEndOk frLast rest) then
        tg ++ replaceWordGo fr tg frHead frLast fuel (isWordChar frLast) rest
      else
        c :: replaceWordGo fr tg frHead frLast fuel (isWordChar c) cs
    | none => c :: replaceWordGo fr tg frHead frLast fuel (isWordChar c) cs

/-- The replaceWord helper of both converters in shader_lang.h: replace
whole-word occurrences only. -/
def replaceWord (fr tg : String) (s : String) : String :=
  match fr.data with
  | [] => s
  | a :: r => ⟨replaceWordGo fr.data tg.data a (r.getLastD a) s.data.length false s.data⟩

/-- The ordered type map of HLSLtoGLSLConverter::convertTypes (longer
names first). -/
def hlslToGlslTypeMap : List (String × String) :=
  [("float4x4", "mat4"), ("float3x3", "mat3"), ("float2x2", "mat2"),
   ("float4", "vec4"), ("float3", "vec3"), ("float2", "vec2"),
   ("half4", "vec4"), ("half3", "vec3"), ("half2", "vec2"), ("half", "float"),
   ("int4", "ivec4"), ("int3", "ivec3"), ("int2", "ivec2"),
   ("uint4", "uvec4"), ("uint3", "uvec3"), ("uint2", "uvec2"),
   ("bool4", "bvec4"), ("bool3", "bvec3"), ("bool2", "bvec2")]

/-- HLSLtoGLSLConverter::convertTypes. -/
def hlslToGlslTypes (s : String) : String :=
  hlslToGlslTypeMap.foldl (fun acc e => replaceWord e.1 e.2 acc) s

/-- The ordered type map of GLSLtoHLSLConverter::convertTypes. -/
def glslToHlslTypeMap : List (String × String) :=
  [("mat4", "float4x4"), ("mat3", "float3x3"), ("mat2", "float2x2"),
   ("vec4", "float4"), ("vec3", "float3"), ("vec2", "float2"),
   ("ivec4", "int4"), ("ivec3", "int3"), ("ivec2", "int2"),
   ("uvec4", "uint4"), ("uvec3", "uint3"), ("uvec2", "uint2"),
   ("bvec4", "bool4"), ("bvec3", "bool3"), ("bvec2", "bool2")]

/-- GLSLtoHLSLConverter::convertTypes. -/
def glslToHlslTypes (s : String) : String :=
  glslToHlslTypeMap.foldl (fun acc e => replaceWord e.1 e.2 acc) s

/-- The literal "saturate" of the convertSaturate regex. -/
def satLit : List Char := "saturate".data

/-- Split the text at its first close parenthesis: the characters matched
by a greedy [^)]+ group and the text after the parenthesis. -/
def splitClose : List Char → Option (List Char × List Char)
  | [] => none
  | c :: cs =>
    if c == ')' then some ([], cs)
    else (splitClose cs).map (fun p => (c :: p.1, p.2))

/-- The capture group of saturate\s*\(\s*([^)]+)\s*\) on a nonempty span:
the leading \s* takes as much whitespace as the mandatory [^)]+ leaves
available, so the group is the span without its whitespace prefix — except
that a span of nothing but whitespace leaves its last character to the
group. -/
def satGroup (span : List Char) : List Char :=
  match span.dropWhile isSpaceCh with
  | [] => span.drop (span.length - 1)
  | g => g

/-- The part of one convertSaturate match attempt after the literal and
its following whitespace: an opening parenthesis, then a nonempty span up
to the first close parenthesis. -/
def matchAfterLit : List Char → Option (List Char × List Char)
  | [] => none
  | c :: r3 =>
    if c = '(' then
      match splitClose r3 with
      | some (span, rest) => if span.isEmpty then none else some (satGroup span, rest)
      | none => none
    else none

/-- One match attempt of the convertSaturate regex at the head of the
text: literal "saturate", optional whitespace, an opening parenthesis,
then a nonempty run of non-close-parenthesis characters up to the first
close parenthesis.  Returns the capture group and the rest of the text. -/
def matchSat (s : List Char) : Option (List Char × List Char) :=
  (takeLit satLit s).bind (fun r1 => matchAfterLit (r1.dropWhile isSpaceCh))

/-- The replacement text clamp($1, 0.0, 1.0) of convertSaturate. -/
def satRepl (gp : List Char) : List Char :=
  "clamp(".data ++ gp ++ ", 0.0, 1.0)".data

/-- The left-to-right scan of std::regex_replace for the saturate
rewrite: replace each leftmost match and continue after it. -/
def convSatGo : Nat → List Char → List Char
  | 0, s => s
  | fuel + 1, s =>
    match s with
    | [] => []
    | c :: cs =>
      match matchSat (c :: cs) with
      | some (gp, rest) => satRepl gp ++ convSatGo fuel rest
      | none => c :: convSatGo fuel cs

/-- HLSLtoGLSLConverter::convertSaturate. -/
def convertSaturate (s : String) : String :=
  ⟨convSatGo s.data.length s.data⟩

/-! ### Generic list helpers -/

theorem foldl_rel {α σ : Type _} {R : σ → σ → Prop} (hrefl : ∀ s, R s s)
    (htrans : ∀ a b c, R a b → R b c → R a c) (f : σ → α → σ) :
    ∀ (l : List α) (s : σ), (∀ s' a, a ∈ l → R s' (f s' a)) → R s (l.foldl f s) := by
  intro l
  induction l with
  | nil => intro s _; exact hrefl s
  | cons a t ih =>
    intro s h
    exact htrans _ _ _ (h s a (by simp)) (ih (f s a) (fun s' b hb => h s' b (by simp [hb])))

theorem length_filter_mono {α : Type _} (p q : α → Bool)
    (h : ∀ x, q x = true → p x = true) :
    ∀ l : List α, (l.filter q).length ≤ (l.filter p).length := by
  intro l
  induction l with
  | nil => simp
  | cons a t ih =>
    cases hq : q a with
    | true => simp [List.filter_cons, hq, h a hq]; omega
    | false =>
      cases hp : p a with
      | true => simp [List.filter_cons, hq, hp]; omega
      | false => simpa [List.filter_cons, hq, hp] using ih

theorem length_filter_strict {α : Type _} (p q : α → Bool)
    (h : ∀ x, q x = true → p x = true) :
    ∀ l : List α, ∀ a ∈ l, p a = true → q a = false →
      (l.filter q).length < (l.filter p).length := by
  intro l
  induction l with
  | nil => simp
  | cons b t ih =>
    intro a ha hpa hqa
    rcases List.mem_cons.mp ha with hba | hat
    · subst hba
      have := length_filter_mono p q h t
      simp [List.filter_cons, hpa, hqa]; omega
    · cases hq : q b with
      | true =>
        have := ih a hat hpa hqa
        simp [List.filter_cons, hq, h b hq]; omega
      | false =>
        cases hp : p b with
        | true =>
          have := ih a hat hpa hqa
          simp [List.filter_cons, hq, hp]; omega
        | false => simpa [List.filter_cons, hq, hp] using ih a hat hpa hqa

/-! ### Basic invariants of the DFS of the dependency resolver -/

/-- During the sort phase, the visited set and the result vector hold the
same nodes (topologicalSortDFS inserts into both together). -/
def Sync (s : St) : Prop := ∀ x, x ∈ s.visited ↔ x ∈ s.result

/-- The preservation relation of one or more topologicalSortDFS calls with
every touched inStack extending is: the result grows at the end only, the
visited set grows, every new result element avoids is, and the
visited-result sync plus result distinctness are preserved. -/
def DfsLe (is : List Nat) (s s' : St) : Prop :=
  (∃ t, s'.result = s.result ++ t) ∧
  (∀ x, x ∈ s.visited → x ∈ s'.visited) ∧
  (∀ x, x ∈ s'.result → x ∈ s.result ∨ x ∉ is) ∧
  ((Sync s ∧ s.result.Nodup) → (Sync s' ∧ s'.result.Nodup))

theorem dfsLe_refl (is : List Nat) (s : St) : DfsLe is s s :=
  ⟨⟨[], by simp⟩, fun _ h => h, fun _ h => Or.inl h, id⟩

theorem dfsLe_trans {is : List Nat} {a b c : St} (h1 : DfsLe is a b) (h2 : DfsLe is b c) :
    DfsLe is a c := by
  obtain ⟨⟨t1, ht1⟩, hv1, hn1, hs1⟩ := h1
  obtain ⟨⟨t2, ht2⟩, hv2, hn2, hs2⟩ := h2
  refine ⟨⟨t1 ++ t2, by simp [ht2, ht1]⟩, fun x hx => hv2 x (hv1 x hx), ?_, fun h => hs2 (hs1 h)⟩
  intro x hx
  rcases hn2 x hx with h | h
  · exact hn1 x h
  · exact Or.inr h

theorem dfsLe_weaken {is is' : List Nat} {s s' : St} (h : DfsLe is' s s')
    (hsub : ∀ x, x ∈ is → x ∈ is') : DfsLe is s s' := by
  obtain ⟨hp, hv, hn, hs⟩ := h
  refine ⟨hp, hv, ?_, hs⟩
  intro x hx
  rcases hn x hx with h | h
  · exact Or.inl h
  · exact Or.inr (fun hc => h (hsub x hc))

theorem sortDFS_le (g : Graph) :
    ∀ (fuel : Nat) (is : List Nat) (i : Nat) (s : St), DfsLe is s (sortDFS g fuel is i s) := by
  intro fuel
  induction fuel with
  | zero => intro is i s; exact dfsLe_refl is s
  | succ fuel ih =>
    intro is i s
    by_cases his : i ∈ is
    · simp only [sortDFS, if_pos his]; exact dfsLe_refl is s
    · by_cases hvis : i ∈ s.visited
      · simp only [sortDFS, if_neg his, if_pos hvis]; exact dfsLe_refl is s
      · simp only [sortDFS, if_neg his, if_neg hvis]
        have hfold : DfsLe (i :: is) s
            ((deps g i).foldl (fun acc d => sortDFS g fuel (i :: is) d acc) s) :=
          foldl_rel (dfsLe_refl _) (fun _ _ _ => dfsLe_trans) _ (deps g i) s
            (fun s' d _ => ih (i :: is) d s')
        set s' := (deps g i).foldl (fun acc d => sortDFS g fuel (i :: is) d acc) s with hs'
        obtain ⟨⟨t, ht⟩, hv, hn, hsn⟩ := hfold
        refine ⟨⟨t ++ [i], by simp [ht]⟩, fun x hx => by simp [hv x hx], ?_, ?_⟩
        · intro x hx
          have hx2 : x ∈ s'.result ∨ x = i := by
            have hx' : x ∈ s'.result ++ [i] := hx
            rcases List.mem_append.mp hx' with h | h
            · exact Or.inl h
            · exact Or.inr (by simpa using h)
          rcases hx2 with h | h
          · rcases hn x h with h' | h'
            · exact Or.inl h'
            · exact Or.inr (fun hc => h' (by simp [hc]))
          · subst h
            exact Or.inr his
        · rintro ⟨hsync, hnd⟩
          obtain ⟨hsync', hnd'⟩ := hsn ⟨hsync, hnd⟩
          constructor
          · intro x
            constructor
            · intro hx
              rcases List.mem_cons.mp hx with h | h
              · subst h; simp
              · simp [List.mem_append, (hsync' x).mp h]
            · intro hx
              rcases List.mem_append.mp hx with h | h
              · simp [(hsync' x).mpr h]
              · have : x = i := by simpa using h
                simp [this]
          · have hi_not : i ∉ s'.result := by
              intro hc
              rcases hn i hc with h | h
              · exact hvis ((hsync i).mpr h)
              · exact h (by simp)
            simpa [List.nodup_append, hi_not] using hnd'

theorem sortDFS_skip (g : Graph) (fuel : Nat) (is : List Nat) (i : Nat) (s : St)
    (h : i ∈ is) : sortDFS g (fuel + 1) is i s = s := by
  simp [sortDFS, h]

theorem sortDFS_mem_self (g : Graph) (fuel : Nat) (is : List Nat) (i : Nat) (s : St)
    (hs : Sync s) : i ∈ is ∨ i ∈ (sortDFS g (fuel + 1) is i s).result := by
  by_cases his : i ∈ is
  · exact Or.inl his
  · by_cases hvis : i ∈ s.visited
    · refine Or.inr ?_
      simp only [sortDFS, if_neg his, if_pos hvis]
      exact (hs i).mp hvis
    · refine Or.inr ?_
      simp only [sortDFS, if_neg his, if_neg hvis]
      simp

theorem sortSeeds_le (g : Graph) (fuel : Nat) (seeds : List Nat) (s : St) :
    DfsLe [] s (sortSeeds g fuel seeds s) := by
  refine foldl_rel (dfsLe_refl _) (fun _ _ _ => dfsLe_trans) _ seeds s ?_
  intro s' i _
  by_cases h : i ∈ s'.visited
  · simp only [if_pos h]; exact dfsLe_refl _ _
  · simp only [if_neg h]; exact sortDFS_le g fuel [] i s'

theorem sortSeeds_sync_nodup (g : Graph) (fuel : Nat) (seeds : List Nat) :
    Sync (sortSeeds g fuel seeds ⟨[], []⟩) ∧ (sortSeeds g fuel seeds ⟨[], []⟩).result.Nodup := by
  obtain ⟨_, _, _, h⟩ := sortSeeds_le g fuel seeds ⟨[], []⟩
  exact h ⟨by intro x; simp, by simp⟩

/-- Every fuel gives a duplicate-free resolver result. -/
theorem topologicalSortFuel_nodup (g : Graph) (out fuel : Nat) :
    (topologicalSortFuel g out fuel).Nodup :=
  (sortSeeds_sync_nodup g fuel _).2

/-- The resolver result contains each node at most once. -/
theorem topologicalSort_nodup (g : Graph) (out : Nat) :
    (topologicalSort g out).Nodup :=
  topologicalSortFuel_nodup g out _

theorem collectGo_acc_pre (g : Graph) :
    ∀ (fuel : Nat) (vs : List Nat × List Nat) (i : Nat),
      ∃ t, (collectGo g fuel vs i).2 = vs.2 ++ t := by
  intro fuel
  induction fuel with
  | zero => intro vs i; exact ⟨[], by simp [collectGo]⟩
  | succ fuel ih =>
    intro vs i
    by_cases h : i ∈ vs.1
    · exact ⟨[], by simp [collectGo, h]⟩
    · simp only [collectGo, if_neg h]
      have hfold : ∀ (l : List Nat) (p : List Nat × List Nat),
          ∃ t, (l.foldl (fun p d => collectGo g fuel p d) p).2 = p.2 ++ t := by
        intro l
        induction l with
        | nil => intro p; exact ⟨[], by simp⟩
        | cons d r ihr =>
          intro p
          obtain ⟨t1, ht1⟩ := ih p d
          obtain ⟨t2, ht2⟩ := ihr (collectGo g fuel p d)
          exact ⟨t1 ++ t2, by simp [ht2, ht1]⟩
      obtain ⟨t, ht⟩ := hfold (deps g i) (i :: vs.1, vs.2 ++ [i])
      exact ⟨[i] ++ t, by simp [ht]⟩

theorem collectFold_acc_pre (g : Graph) (fuel : Nat) (l : List Nat) (p : List Nat × List Nat) :
    ∃ t, (l.foldl (fun p d => collectGo g fuel p d) p).2 = p.2 ++ t := by
  refine @foldl_rel Nat (List Nat × List Nat) (fun p q => ∃ t, q.2 = p.2 ++ t)
    (fun p => ⟨[], by simp⟩) ?_ _ l p ?_
  · rintro a b c ⟨t1, ht1⟩ ⟨t2, ht2⟩
    exact ⟨t1 ++ t2, by simp [ht2, ht1]⟩
  · intro p' d _
    exact collectGo_acc_pre g fuel p' d

/-- The collected-nodes list starts with the output node. -/
theorem collect_head (g : Graph) (fuel : Nat) (out : Nat) :
    ∃ t, (collectGo g (fuel + 1) ([], []) out).2 = out :: t := by
  have hstep : collectGo g (fuel + 1) ([], []) out
      = (deps g out).foldl (fun p d => collectGo g fuel p d) ([out], [out]) := by
    simp [collectGo]
  obtain ⟨t, ht⟩ := collectFold_acc_pre g fuel (deps g out) ([out], [out])
  exact ⟨t, by rw [hstep]; simpa using ht⟩

/-- The resolver result always contains the output node it was launched
from (it is the first collected node and is appended by its own DFS
call). -/
theorem out_mem_topologicalSortFuel (g : Graph) (out fuel : Nat) :
    out ∈ topologicalSortFuel g out (fuel + 1) := by
  obtain ⟨t, ht⟩ := collect_head g fuel out
  show out ∈ (sortSeeds g (fuel + 1) (collectGo g (fuel + 1) ([], []) out).2 ⟨[], []⟩).result
  rw [ht]
  have hstep : sortSeeds g (fuel + 1) (out :: t) ⟨[], []⟩
      = sortSeeds g (fuel + 1) t (sortDFS g (fuel + 1) [] out ⟨[], []⟩) := by
    simp [sortSeeds]
  rw [hstep]
  have hmem : out ∈ (sortDFS g (fuel + 1) [] out ⟨[], []⟩).result := by
    rcases sortDFS_mem_self g fuel [] out ⟨[], []⟩ (by intro x; simp) with h | h
    · simp at h
    · exact h
  obtain ⟨⟨t2, ht2⟩, _, _, _⟩ := sortSeeds_le g (fuel + 1) t (sortDFS g (fuel + 1) [] out ⟨[], []⟩)
  rw [ht2]
  exact List.mem_append.mpr (Or.inl hmem)

/-- The resolver result contains the output node. -/
theorem out_mem_topologicalSort (g : Graph) (out : Nat) :
    out ∈ topologicalSort g out :=
  out_mem_topologicalSortFuel g out g.nodes.length

/-! ### Fuel sufficiency: the C++ recursion depth is bounded by the
number of nodes, so every fuel of at least (number of nodes + 1) computes
the same resolver result.  This is the termination argument of the C++
code, whose recursion is blocked by the visited and on-stack sets. -/

/-- The number of node ids still open for a DFS call: not on the stack
and not visited. -/
def freeCnt (g : Graph) (is vis : List Nat) : Nat :=
  ((idsOf g).filter (fun x => decide (x ∉ is ∧ x ∉ vis))).length

theorem freeCnt_le (g : Graph) (is vis : List Nat) : freeCnt g is vis ≤ g.nodes.length := by
  have h := List.length_filter_le (fun x => decide (x ∉ is ∧ x ∉ vis)) (idsOf g)
  simpa [freeCnt, idsOf] using h

theorem freeCnt_mono_vis (g : Graph) (is : List Nat) {v1 v2 : List Nat}
    (h : ∀ x, x ∈ v1 → x ∈ v2) : freeCnt g is v2 ≤ freeCnt g is v1 := by
  refine length_filter_mono _ _ ?_ (idsOf g)
  intro x hx
  simp only [decide_eq_true_eq] at hx ⊢
  exact ⟨hx.1, fun hc => hx.2 (h x hc)⟩

theorem freeCnt_push_is (g : Graph) {i : Nat} (hi : i ∈ idsOf g) {is vis : List Nat}
    (h1 : i ∉ is) (h2 : i ∉ vis) : freeCnt g (i :: is) vis < freeCnt g is vis := by
  refine length_filter_strict _ _ ?_ (idsOf g) i hi ?_ ?_
  · intro x hx
    simp only [decide_eq_true_eq, List.mem_cons] at hx ⊢
    exact ⟨fun hc => hx.1 (Or.inr hc), hx.2⟩
  · simp [h1, h2]
  · simp

theorem freeCnt_push_vis (g : Graph) {i : Nat} (hi : i ∈ idsOf g) {is vis : List Nat}
    (h1 : i ∉ is) (h2 : i ∉ vis) : freeCnt g is (i :: vis) < freeCnt g is vis := by
  refine length_filter_strict _ _ ?_ (idsOf g) i hi ?_ ?_
  · intro x hx
    simp only [decide_eq_true_eq, List.mem_cons] at hx ⊢
    exact ⟨hx.1, fun hc => hx.2 (Or.inr hc)⟩
  · simp [h1, h2]
  · simp

theorem deps_ne_nil_mem_ids (g : Graph) (i : Nat) (h : deps g i ≠ []) : i ∈ idsOf g := by
  unfold deps at h
  cases hl : lookupNode g i with
  | none => rw [hl] at h; simp at h
  | some n =>
    have hmem := List.mem_of_find?_eq_some hl
    have hpred := List.find?_some hl
    have hid : n.id = i := by simpa using hpred
    exact hid ▸ List.mem_map_of_mem (fun n => n.id) hmem

theorem sortDFS_vis_mono (g : Graph) (fuel : Nat) (is : List Nat) (i : Nat) (s : St) :
    ∀ x, x ∈ s.visited → x ∈ (sortDFS g fuel is i s).visited :=
  (sortDFS_le g fuel is i s).2.1

theorem sortDFS_stable (g : Graph) :
    ∀ (c f f' : Nat) (is : List Nat) (i : Nat) (s : St),
      freeCnt g is s.visited ≤ c → c < f → c < f' →
      sortDFS g f is i s = sortDFS g f' is i s := by
  intro c
  induction c with
  | zero =>
    intro f f' is i s hc hf hf'
    obtain ⟨a, rfl⟩ : ∃ a, f = a + 1 := ⟨f - 1, by omega⟩
    obtain ⟨b, rfl⟩ : ∃ b, f' = b + 1 := ⟨f' - 1, by omega⟩
    by_cases his : i ∈ is
    · simp [sortDFS, his]
    · by_cases hvis : i ∈ s.visited
      · simp [sortDFS, his, hvis]
      · cases hd : deps g i with
        | nil => simp [sortDFS, his, hvis, hd]
        | cons d r =>
          exfalso
          have hi : i ∈ idsOf g := deps_ne_nil_mem_ids g i (by simp [hd])
          have := freeCnt_push_is g hi his hvis
          omega
  | succ c ih =>
    intro f f' is i s hc hf hf'
    obtain ⟨a, rfl⟩ : ∃ a, f = a + 1 := ⟨f - 1, by omega⟩
    obtain ⟨b, rfl⟩ : ∃ b, f' = b + 1 := ⟨f' - 1, by omega⟩
    by_cases his : i ∈ is
    · simp [sortDFS, his]
    · by_cases hvis : i ∈ s.visited
      · simp [sortDFS, his, hvis]
      · cases hd : deps g i with
        | nil => simp [sortDFS, his, hvis, hd]
        | cons d r =>
          have hi : i ∈ idsOf g := deps_ne_nil_mem_ids g i (by simp [hd])
          have hlt : freeCnt g (i :: is) s.visited < freeCnt g is s.visited :=
            freeCnt_push_is g hi his hvis
          have hfold : ∀ (ds : List Nat) (s1 : St), freeCnt g (i :: is) s1.visited ≤ c →
              ds.foldl (fun acc x => sortDFS g a (i :: is) x acc) s1
                = ds.foldl (fun acc x => sortDFS g b (i :: is) x acc) s1 := by
            intro ds
            induction ds with
            | nil => intro s1 _; rfl
            | cons x r2 ihr =>
              intro s1 hc1
              have h1 : sortDFS g a (i :: is) x s1 = sortDFS g b (i :: is) x s1 :=
                ih a b (i :: is) x s1 hc1 (by omega) (by omega)
              simp only [List.foldl_cons, h1]
              refine ihr (sortDFS g b (i :: is) x s1) ?_
              calc freeCnt g (i :: is) (sortDFS g b (i :: is) x s1).visited
                  ≤ freeCnt g (i :: is) s1.visited :=
                    freeCnt_mono_vis g _ (sortDFS_vis_mono g b (i :: is) x s1)
                _ ≤ c := hc1
          have hbound : freeCnt g (i :: is) s.visited ≤ c := by omega
          simp only [sortDFS, if_neg his, if_neg hvis]
          rw [hfold (deps g i) s hbound]

theorem collectGo_vis_mono (g : Graph) :
    ∀ (fuel : Nat) (vs : List Nat × List Nat) (i : Nat),
      ∀ x, x ∈ vs.1 → x ∈ (collectGo g fuel vs i).1 := by
  intro fuel
  induction fuel with
  | zero => intro vs i x hx; simpa [collectGo] using hx
  | succ fuel ih =>
    intro vs i x hx
    by_cases h : i ∈ vs.1
    · simpa [collectGo, h] using hx
    · simp only [collectGo, if_neg h]
      have hfold : ∀ (l : List Nat) (p : List Nat × List Nat), (∀ y, y ∈ p.1 →
          y ∈ (l.foldl (fun p d => collectGo g fuel p d) p).1) := by
        intro l
        induction l with
        | nil => intro p y hy; simpa using hy
        | cons d r ihr =>
          intro p y hy
          exact ihr (collectGo g fuel p d) y (ih p d y hy)
      exact hfold (deps g i) (i :: vs.1, vs.2 ++ [i]) x (by simp [hx])

theorem collectGo_stable (g : Graph) :
    ∀ (c f f' : Nat) (vs : List Nat × List Nat) (i : Nat),
      freeCnt g [] vs.1 ≤ c → c < f → c < f' →
      collectGo g f vs i = collectGo g f' vs i := by
  intro c
  induction c with
  | zero =>
    intro f f' vs i hc hf hf'
    obtain ⟨a, rfl⟩ : ∃ a, f = a + 1 := ⟨f - 1, by omega⟩
    obtain ⟨b, rfl⟩ : ∃ b, f' = b + 1 := ⟨f' - 1, by omega⟩
    by_cases h : i ∈ vs.1
    · simp [collectGo, h]
    · cases hd : deps g i with
      | nil => simp [collectGo, h, hd]
      | cons d r =>
        exfalso
        have hi : i ∈ idsOf g := deps_ne_nil_mem_ids g i (by simp [hd])
        have := freeCnt_push_vis g hi (List.not_mem_nil i) h
        omega
  | succ c ih =>
    intro f f' vs i hc hf hf'
    obtain ⟨a, rfl⟩ : ∃ a, f = a + 1 := ⟨f - 1, by omega⟩
    obtain ⟨b, rfl⟩ : ∃ b, f' = b + 1 := ⟨f' - 1, by omega⟩
    by_cases h : i ∈ vs.1
    · simp [collectGo, h]
    · cases hd : deps g i with
      | nil => simp [collectGo, h, hd]
      | cons d r =>
        have hi : i ∈ idsOf g := deps_ne_nil_mem_ids g i (by simp [hd])
        have hlt : freeCnt g [] (i :: vs.1) < freeCnt g [] vs.1 :=
          freeCnt_push_vis g hi (List.not_mem_nil i) h
        have hfold : ∀ (ds : List Nat) (p : List Nat × List Nat), freeCnt g [] p.1 ≤ c →
            ds.foldl (fun p d => collectGo g a p d) p
              = ds.foldl (fun p d => collectGo g b p d) p := by
          intro ds
          induction ds with
          | nil => intro p _; rfl
          | cons x r2 ihr =>
            intro p hc1
            have h1 : collectGo g a p x = collectGo g b p x :=
              ih a b p x hc1 (by omega) (by omega)
            simp only [List.foldl_cons, h1]
            refine ihr (collectGo g b p x) ?_
            calc freeCnt g [] (collectGo g b p x).1
                ≤ freeCnt g [] p.1 := freeCnt_mono_vis g _ (collectGo_vis_mono g b p x)
              _ ≤ c := hc1
        have hbound : freeCnt g [] (i :: vs.1) ≤ c := by omega
        simp only [collectGo, if_neg h]
        exact hfold (deps g i) (i :: vs.1, vs.2 ++ [i]) hbound

/-- The resolver loop over the collected seeds computes the same result
for any two sufficient fuels. -/
theorem sortSeeds_stable (g : Graph) (f f' : Nat) (hf : g.nodes.length < f)
    (hf' : g.nodes.length < f') :
    ∀ (seeds : List Nat) (s : St), sortSeeds g f seeds s = sortSeeds g f' seeds s := by
  intro seeds
  induction seeds with
  | nil => intro s; rfl
  | cons i r ih =>
    intro s
    by_cases h : i ∈ s.visited
    · simp only [sortSeeds, List.foldl_cons, if_pos h]
      exact ih s
    · have h1 : sortDFS g f [] i s = sortDFS g f' [] i s :=
        sortDFS_stable g g.nodes.length f f' [] i s (freeCnt_le g [] s.visited) hf hf'
      simp only [sortSeeds, List.foldl_cons, if_neg h, h1]
      exact ih (sortDFS g f' [] i s)

/-- Termination of the resolver: every fuel of at least
(number of nodes + 1) yields the value the resolver is defined to
return. -/
theorem topologicalSortFuel_stable (g : Graph) (out : Nat) (f : Nat)
    (hf : g.nodes.length + 1 ≤ f) :
    topologicalSortFuel g out f = topologicalSort g out := by
  unfold topologicalSort topologicalSortFuel
  have hc : collectGo g f ([], []) out = collectGo g (g.nodes.length + 1) ([], []) out :=
    collectGo_stable g g.nodes.length f (g.nodes.length + 1) ([], []) out
      (freeCnt_le g [] []) (by omega) (by omega)
  rw [hc, sortSeeds_stable g f (g.nodes.length + 1) (by omega) (by omega)]

/-! ### Ordering of the resolver result on cycle-free reachable graphs -/

/-- Reachability from the output node following input links backward:
exactly the nodes the two DFS passes can touch. -/
inductive Reach (g : Graph) (root : Nat) : Nat → Prop where
  | refl : Reach g root root
  | step {y x : Nat} : Reach g root y → x ∈ deps g y → Reach g root x

/-- The ordering invariant of the sort phase relative to the current
on-stack set: every emitted node is preceded by each of its dependencies,
except dependencies still on the stack (cycle edges). -/
def Good (g : Graph) (is l : List Nat) : Prop :=
  ∀ y ∈ l, ∀ x ∈ deps g y, x ∈ is ∨ [x, y].Sublist l

theorem good_weaken {g : Graph} {is is' l : List Nat} (h : Good g is l)
    (hsub : ∀ x, x ∈ is → x ∈ is') : Good g is' l := by
  intro y hy x hx
  rcases h y hy x hx with h' | h'
  · exact Or.inl (hsub x h')
  · exact Or.inr h'

theorem sublist_pair_snoc {x i : Nat} {l : List Nat} (hx : x ∈ l) :
    [x, i].Sublist (l ++ [i]) := by
  have h1 : [x].Sublist l := List.singleton_sublist.mpr hx
  simpa using h1.append (List.Sublist.refl [i])

theorem sublist_pair_extend {x y : Nat} {l t : List Nat} (h : [x, y].Sublist l) :
    [x, y].Sublist (l ++ t) :=
  h.trans (List.sublist_append_left l t)

theorem sortDFS_mem_self' (g : Graph) (fuel : Nat) (is : List Nat) (i : Nat) (s : St)
    (hf : 1 ≤ fuel) (hs : Sync s) : i ∈ is ∨ i ∈ (sortDFS g fuel is i s).result := by
  obtain ⟨k, rfl⟩ : ∃ k, fuel = k + 1 := ⟨fuel - 1, by omega⟩
  exact sortDFS_mem_self g k is i s hs

/-- Soundness of the collect pass: it only gathers reachable nodes. -/
theorem collectGo_sound (g : Graph) (root : Nat) :
    ∀ (fuel : Nat) (vs : List Nat × List Nat) (i : Nat),
      Reach g root i → (∀ x ∈ vs.2, Reach g root x) →
      ∀ x ∈ (collectGo g fuel vs i).2, Reach g root x := by
  intro fuel
  induction fuel with
  | zero => intro vs i _ hacc x hx; exact hacc x (by simpa [collectGo] using hx)
  | succ fuel ih =>
    intro vs i hi hacc x hx
    by_cases h : i ∈ vs.1
    · exact hacc x (by simpa [collectGo, h] using hx)
    · simp only [collectGo, if_neg h] at hx
      have hfold : ∀ (ds : List Nat), (∀ d ∈ ds, Reach g root d) →
          ∀ (p : List Nat × List Nat), (∀ y ∈ p.2, Reach g root y) →
          ∀ y ∈ (ds.foldl (fun p d => collectGo g fuel p d) p).2, Reach g root y := by
        intro ds
        induction ds with
        | nil => intro _ p hp y hy; exact hp y hy
        | cons d rest ihr =>
          intro hds p hp y hy
          refine ihr (fun e he => hds e (by simp [he])) (collectGo g fuel p d) ?_ y hy
          exact ih p d (hds d (by simp)) hp
      refine hfold (deps g i) (fun d hd => Reach.step hi hd) (i :: vs.1, vs.2 ++ [i]) ?_ x hx
      intro y hy
      rcases List.mem_append.mp hy with h' | h'
      · exact hacc y h'
      · have : y = i := by simpa using h'
        exact this ▸ hi

/-- The central invariant lemma of topologicalSortDFS on a ranked
(cycle-free) reachable subgraph: the ordering invariant is preserved, all
emitted nodes are reachable, and every newly emitted node has rank at
most the rank of the call's node. -/
theorem sortDFS_main (g : Graph) (root : Nat) (r : Nat → Nat)
    (hr : ∀ y x, Reach g root y → x ∈ deps g y → r x < r y) :
    ∀ (fuel : Nat) (is : List Nat) (i : Nat) (s : St),
      freeCnt g is s.visited < fuel → Sync s → s.result.Nodup →
      Good g is s.result → (∀ x ∈ s.result, Reach g root x) →
      Reach g root i → (∀ x ∈ is, Reach g root x) →
      Good g is (sortDFS g fuel is i s).result ∧
      (∀ x ∈ (sortDFS g fuel is i s).result, Reach g root x) ∧
      (∀ x ∈ (sortDFS g fuel is i s).result, x ∈ s.result ∨ r x ≤ r i) := by
  intro fuel
  induction fuel with
  | zero => intro is i s hcnt; omega
  | succ fuel ih =>
    intro is i s hcnt hsync hnd hgood hres hri his
    by_cases hiis : i ∈ is
    · rw [sortDFS_skip g fuel is i s hiis]
      exact ⟨hgood, hres, fun x hx => Or.inl hx⟩
    · by_cases hivis : i ∈ s.visited
      · have heq : sortDFS g (fuel + 1) is i s = s := by simp [sortDFS, hiis, hivis]
        rw [heq]
        exact ⟨hgood, hres, fun x hx => Or.inl hx⟩
      · have hgood' : Good g (i :: is) s.result :=
          good_weaken hgood (fun x hx => by simp [hx])
        cases hdeps : deps g i with
        | nil =>
          have heq : sortDFS g (fuel + 1) is i s = ⟨i :: s.visited, s.result ++ [i]⟩ := by
            simp [sortDFS, hiis, hivis, hdeps]
          rw [heq]
          refine ⟨?_, ?_, ?_⟩
          · intro y hy x hx
            have hy' : y ∈ s.result ∨ y = i := by
              have : y ∈ s.result ++ [i] := hy
              rcases List.mem_append.mp this with h | h
              · exact Or.inl h
              · exact Or.inr (by simpa using h)
            rcases hy' with h | h
            · rcases hgood y h x hx with h' | h'
              · exact Or.inl h'
              · exact Or.inr (sublist_pair_extend h')
            · subst h
              rw [hdeps] at hx
              simp at hx
          · intro x hx
            have hx' : x ∈ s.result ∨ x = i := by
              have : x ∈ s.result ++ [i] := hx
              rcases List.mem_append.mp this with h | h
              · exact Or.inl h
              · exact Or.inr (by simpa using h)
            rcases hx' with h | h
            · exact hres x h
            · exact h ▸ hri
          · intro x hx
            have hx' : x ∈ s.result ∨ x = i := by
              have : x ∈ s.result ++ [i] := hx
              rcases List.mem_append.mp this with h | h
              · exact Or.inl h
              · exact Or.inr (by simpa using h)
            rcases hx' with h | h
            · exact Or.inl h
            · exact Or.inr (h ▸ Nat.le_refl (r i))
        | cons d0 r0 =>
          have hi_ids : i ∈ idsOf g := deps_ne_nil_mem_ids g i (by simp [hdeps])
          have hcnt1 : freeCnt g (i :: is) s.visited < fuel := by
            have h1 : freeCnt g (i :: is) s.visited < freeCnt g is s.visited :=
              freeCnt_push_is g hi_ids hiis hivis
            omega
          have hfold : ∀ (ds : List Nat), (∀ d ∈ ds, d ∈ deps g i) → ∀ (s1 : St),
              freeCnt g (i :: is) s1.visited < fuel → Sync s1 → s1.result.Nodup →
              Good g (i :: is) s1.result → (∀ x ∈ s1.result, Reach g root x) →
              (∀ x ∈ s1.result, x ∈ s.result ∨ r x < r i) →
              Good g (i :: is)
                  (ds.foldl (fun acc d => sortDFS g fuel (i :: is) d acc) s1).result ∧
              (∀ x ∈ (ds.foldl (fun acc d => sortDFS g fuel (i :: is) d acc) s1).result,
                  Reach g root x) ∧
              (∀ x ∈ (ds.foldl (fun acc d => sortDFS g fuel (i :: is) d acc) s1).result,
                  x ∈ s.result ∨ r x < r i) ∧
              (∀ d ∈ ds,
                  d ∈ (ds.foldl (fun acc d => sortDFS g fuel (i :: is) d acc) s1).result
                    ∨ d ∈ i :: is) ∧
              Sync (ds.foldl (fun acc d => sortDFS g fuel (i :: is) d acc) s1) ∧
              (ds.foldl (fun acc d => sortDFS g fuel (i :: is) d acc) s1).result.Nodup := by
            intro ds
            induction ds with
            | nil =>
              intro _ s1 _ hsync1 hnd1 hgood1 hres1 hrk1
              exact ⟨hgood1, hres1, hrk1, by simp, hsync1, hnd1⟩
            | cons d rest ihr =>
              intro hds s1 hcnt2 hsync1 hnd1 hgood1 hres1 hrk1
              have hd_dep : d ∈ deps g i := hds d (by simp)
              have hrd : Reach g root d := Reach.step hri hd_dep
              have hrdi : r d < r i := hr i d hri hd_dep
              have hmain := ih (i :: is) d s1 hcnt2 hsync1 hnd1 hgood1 hres1 hrd
                (by intro x hx; rcases List.mem_cons.mp hx with h | h
                    · exact h ▸ hri
                    · exact his x h)
              obtain ⟨hgood2, hres2, hrk2⟩ := hmain
              have hle := sortDFS_le g fuel (i :: is) d s1
              obtain ⟨⟨t1, ht1⟩, hv1, hn1, hsn1⟩ := hle
              obtain ⟨hsync2, hnd2⟩ := hsn1 ⟨hsync1, hnd1⟩
              have hcnt3 : freeCnt g (i :: is) (sortDFS g fuel (i :: is) d s1).visited < fuel := by
                have := freeCnt_mono_vis g (i :: is) hv1
                omega
              have hrk3 : ∀ x ∈ (sortDFS g fuel (i :: is) d s1).result,
                  x ∈ s.result ∨ r x < r i := by
                intro x hx
                rcases hrk2 x hx with h | h
                · exact hrk1 x h
                · exact Or.inr (by omega)
              have ihrest := ihr (fun e he => hds e (by simp [he]))
                (sortDFS g fuel (i :: is) d s1) hcnt3 hsync2 hnd2 hgood2 hres2 hrk3
              obtain ⟨hgood4, hres4, hrk4, hpres4, hsync4, hnd4⟩ := ihrest
              have hfuel1 : 1 ≤ fuel := by omega
              have hdpres : d ∈ (sortDFS g fuel (i :: is) d s1).result ∨ d ∈ i :: is := by
                rcases sortDFS_mem_self' g fuel (i :: is) d s1 hfuel1 hsync1 with h | h
                · exact Or.inr h
                · exact Or.inl h
              have hrestle : DfsLe (i :: is) (sortDFS g fuel (i :: is) d s1)
                  (rest.foldl (fun acc d => sortDFS g fuel (i :: is) d acc)
                    (sortDFS g fuel (i :: is) d s1)) :=
                foldl_rel (dfsLe_refl _) (fun _ _ _ => dfsLe_trans) _ rest _
                  (fun s' e _ => sortDFS_le g fuel (i :: is) e s')
              simp only [List.foldl_cons]
              refine ⟨hgood4, hres4, hrk4, ?_, hsync4, hnd4⟩
              intro e he
              rcases List.mem_cons.mp he with h | h
              · subst h
                rcases hdpres with h' | h'
                · obtain ⟨⟨t2, ht2⟩, _, _, _⟩ := hrestle
                  exact Or.inl (by rw [ht2]; exact List.mem_append.mpr (Or.inl h'))
                · exact Or.inr h'
              · exact hpres4 e h
          have hmainfold := hfold (deps g i) (fun d hd => hd) s hcnt1 hsync hnd hgood' hres
            (fun x hx => Or.inl hx)
          obtain ⟨hgoodF, hresF, hrkF, hpresF, hsyncF, hndF⟩ := hmainfold
          have heq : sortDFS g (fuel + 1) is i s
              = ⟨i :: ((deps g i).foldl (fun acc d => sortDFS g fuel (i :: is) d acc) s).visited,
                 ((deps g i).foldl (fun acc d => sortDFS g fuel (i :: is) d acc) s).result ++ [i]⟩ := by
            simp only [sortDFS, if_neg hiis, if_neg hivis]
          rw [heq]
          set s2 := (deps g i).foldl (fun acc d => sortDFS g fuel (i :: is) d acc) s with hs2
          have hmem2 : ∀ x, x ∈ s2.result ++ [i] → x ∈ s2.result ∨ x = i := by
            intro x hx
            rcases List.mem_append.mp hx with h | h
            · exact Or.inl h
            · exact Or.inr (by simpa using h)
          refine ⟨?_, ?_, ?_⟩
          · -- ordering invariant for the extended result
            intro y hy x hx
            rcases hmem2 y hy with hy' | hy'
            · rcases hgoodF y hy' x hx with h | h
              · rcases List.mem_cons.mp h with h' | h'
                · -- dependency equal to the appended node: impossible on ranked graphs
                  exfalso
                  have hy_cases : y ∈ s.result ∨ r y < r i := hrkF y hy'
                  rcases hy_cases with hcase | hcase
                  · rcases hgood y hcase x hx with h'' | h''
                    · exact hiis (h' ▸ h'')
                    · have hxm : x ∈ s.result := (List.Sublist.subset h'') (by simp)
                      exact hivis ((hsync i).mpr (h' ▸ hxm))
                  · have hlt : r x < r y := hr y x (hresF y hy') hx
                    rw [h'] at hlt
                    omega
                · exact Or.inl h'
              · exact Or.inr (sublist_pair_extend h)
            · subst hy'
              rcases hpresF x hx with h | h
              · exact Or.inr (sublist_pair_snoc h)
              · rcases List.mem_cons.mp h with h' | h'
                · exfalso
                  have hlt : r x < r y := hr y x hri hx
                  rw [h'] at hlt
                  omega
                · exact Or.inl h'
          · intro x hx
            rcases hmem2 x hx with h | h
            · exact hresF x h
            · exact h ▸ hri
          · intro x hx
            rcases hmem2 x hx with h | h
            · rcases hrkF x h with h' | h'
              · exact Or.inl h'
              · exact Or.inr (by omega)
            · exact Or.inr (h ▸ Nat.le_refl (r i))

/-- The ordering invariant threaded through the seed loop of
topologicalSort. -/
theorem sortSeeds_main (g : Graph) (root : Nat) (r : Nat → Nat)
    (hr : ∀ y x, Reach g root y → x ∈ deps g y → r x < r y) :
    ∀ (seeds : List Nat), (∀ x ∈ seeds, Reach g root x) →
      ∀ (s1 : St), Sync s1 → s1.result.Nodup →
      Good g [] s1.result → (∀ x ∈ s1.result, Reach g root x) →
      Good g [] (sortSeeds g (g.nodes.length + 1) seeds s1).result ∧
      (∀ x ∈ (sortSeeds g (g.nodes.length + 1) seeds s1).result, Reach g root x) ∧
      Sync (sortSeeds g (g.nodes.length + 1) seeds s1) ∧
      (sortSeeds g (g.nodes.length + 1) seeds s1).result.Nodup := by
  intro seeds
  induction seeds with
  | nil => intro _ s1 h1 h2 h3 h4; exact ⟨h3, h4, h1, h2⟩
  | cons i rest ihr =>
    intro hseeds s1 hsync1 hnd1 hgood1 hres1
    by_cases h : i ∈ s1.visited
    · simp only [sortSeeds, List.foldl_cons, if_pos h]
      exact ihr (fun e he => hseeds e (by simp [he])) s1 hsync1 hnd1 hgood1 hres1
    · simp only [sortSeeds, List.foldl_cons, if_neg h]
      have hcnt : freeCnt g [] s1.visited < g.nodes.length + 1 := by
        have := freeCnt_le g [] s1.visited
        omega
      have hmain := sortDFS_main g root r hr (g.nodes.length + 1) [] i s1 hcnt hsync1 hnd1
        hgood1 hres1 (hseeds i (by simp)) (by simp)
      obtain ⟨hgood2, hres2, _⟩ := hmain
      obtain ⟨_, _, _, hsn⟩ := sortDFS_le g (g.nodes.length + 1) [] i s1
      obtain ⟨hsync2, hnd2⟩ := hsn ⟨hsync1, hnd1⟩
      exact ihr (fun e he => hseeds e (by simp [he])) _ hsync2 hnd2 hgood2 hres2

/-- On a ranked (cycle-free) reachable subgraph, the resolver result is
ordered: every emitted node is preceded by all of its dependencies; and
every emitted node is reachable from the output. -/
theorem topologicalSort_good (g : Graph) (out : Nat) (r : Nat → Nat)
    (hr : ∀ y x, Reach g out y → x ∈ deps g y → r x < r y) :
    Good g [] (topologicalSort g out) ∧
    (∀ x ∈ topologicalSort g out, Reach g out x) := by
  have hseeds : ∀ x ∈ (collectGo g (g.nodes.length + 1) ([], []) out).2, Reach g out x :=
    collectGo_sound g out (g.nodes.length + 1) ([], []) out (Reach.refl) (by simp)
  have h := sortSeeds_main g out r hr (collectGo g (g.nodes.length + 1) ([], []) out).2 hseeds
    ⟨[], []⟩ (by intro x; simp) (by simp) (by intro y hy; simp at hy) (by intro x hx; simp at hx)
  exact ⟨h.1, h.2.1⟩

/-- Completeness on ranked graphs: every node reachable from the output
appears in the resolver result. -/
theorem reach_mem_topologicalSort (g : Graph) (out : Nat) (r : Nat → Nat)
    (hr : ∀ y x, Reach g out y → x ∈ deps g y → r x < r y) :
    ∀ z, Reach g out z → z ∈ topologicalSort g out := by
  intro z hz
  induction hz with
  | refl => exact out_mem_topologicalSort g out
  | step hy hx ih =>
    rename_i y x
    rcases (topologicalSort_good g out r hr).1 y ih x hx with h | h
    · simp at h
    · exact (List.Sublist.subset h) (by simp)

/-- A decidable sufficient condition for the rank hypothesis: the rank
strictly drops across every link of every node present in the graph. -/
def rankOk (g : Graph) (r : Nat → Nat) : Prop :=
  ∀ y ∈ idsOf g, ∀ x ∈ deps g y, r x < r y

instance (g : Graph) (r : Nat → Nat) : Decidable (rankOk g r) :=
  inferInstanceAs (Decidable (∀ y ∈ idsOf g, ∀ x ∈ deps g y, r x < r y))

theorem rank_of_rankOk {g : Graph} {r : Nat → Nat} (h : rankOk g r) :
    ∀ y x, Reach g out y → x ∈ deps g y → r x < r y := by
  intro y x _ hx
  have hy : y ∈ idsOf g := deps_ne_nil_mem_ids g y (by
    intro hc
    rw [hc] at hx
    simp at hx)
  exact h y hy x hx

/-- The emission loop never processes the output node. -/
theorem processNode_out (g : Graph) (out : Nat) (oc : Nat → Nat) (st : GenSt) :
    processNode g out oc st out = st := by
  simp [processNode]

/-- Removing the output node from the processed list leaves the emission
loop's state unchanged. -/
theorem genFold_filter_out (g : Graph) (out : Nat) (oc : Nat → Nat) :
    ∀ (l : List Nat) (st : GenSt),
      genFold g out oc st l = genFold g out oc st (l.filter (fun i => !(i == out))) := by
  intro l
  induction l with
  | nil => intro st; rfl
  | cons i rest ih =>
    intro st
    by_cases h : i = out
    · subst h
      simp only [genFold, List.foldl_cons, List.filter_cons, beq_self_eq_true,
        Bool.not_true, processNode_out]
      exact ih st
    · have hb : (i == out) = false := by simp [h]
      simp only [genFold, List.foldl_cons, List.filter_cons, hb, Bool.not_false]
      exact ih (processNode g out oc st i)

/-! ### Concrete graphs used as witnesses and counterexamples -/

/-- A two-node graph: a float constant feeding the output node's Alpha
pin. -/
def wLine : Graph := ⟨[⟨0, .output, [("Alpha", (1, "Value"))]⟩, ⟨1, .float "0.250", []⟩]⟩

/-- A graph with a link cycle between two add nodes, one of them feeding
the output. -/
def wCyc : Graph := ⟨[⟨0, .output, [("Color", (1, "Result"))]⟩,
  ⟨1, .add, [("A", (2, "Result"))]⟩, ⟨2, .add, [("A", (1, "Result"))]⟩]⟩

/-- The graph containing only the output node. -/
def wOut : Graph := ⟨[⟨0, .output, []⟩]⟩

/-! ### Claims -/

/-- Claim C1: for every link from a node X's output pin to a node Y's
input pin, where X and Y both lie in a cycle-free subgraph reachable from
the output node (witnessed by a rank function that strictly drops along
every dependency edge of the reachable subgraph), X appears strictly
before Y in the node sequence returned by GraphTraverser::topologicalSort. -/
theorem claim_C1_topological_order (g : Graph) (out : Nat) (r : Nat → Nat)
    (hr : ∀ y x, Reach g out y → x ∈ deps g y → r x < r y)
    (X Y : Nat) (hY : Reach g out Y) (hXY : X ∈ deps g Y) :
    [X, Y].Sublist (topologicalSort g out) := by
  have hYm := reach_mem_topologicalSort g out r hr Y hY
  rcases (topologicalSort_good g out r hr).1 Y hYm X hXY with h | h
  · simp at h
  · exact h

/-- Witness for claim C1 on the concrete two-node graph: the float
constant (id 1) feeding the output (id 0) appears strictly before it. -/
theorem claim_C1_witness : [1, 0].Sublist (topologicalSort wLine 0) :=
  claim_C1_topological_order wLine 0 (fun n => if n = 0 then 1 else 0)
    (rank_of_rankOk (by decide)) 1 0 Reach.refl (by decide)

/-- Claim C3: for every graph, including one containing a link cycle, the
resolver terminates (every fuel of at least the node count plus one
returns the resolver's value), returns a sequence in which each node
appears at most once, and an edge reaching a node already on the DFS
stack returns at once without recursing and without raising any failure. -/
theorem claim_C3_cycle_exclusion (g : Graph) (out : Nat) :
    (topologicalSort g out).Nodup ∧
    (∀ f, g.nodes.length + 1 ≤ f → topologicalSortFuel g out f = topologicalSort g out) ∧
    (∀ (fuel : Nat) (is : List Nat) (i : Nat) (s : St), i ∈ is →
      sortDFS g (fuel + 1) is i s = s) :=
  ⟨topologicalSort_nodup g out,
   fun f hf => topologicalSortFuel_stable g out f hf,
   fun fuel is i s h => sortDFS_skip g fuel is i s h⟩

/-- Witness for claim C3 on the concrete cyclic graph A→B→A feeding the
output: the result is duplicate-free, extra fuel returns the same value,
and a DFS call on an on-stack node is the identity. -/
theorem claim_C3_witness :
    (topologicalSort wCyc 0).Nodup ∧
    topologicalSortFuel wCyc 0 9 = topologicalSort wCyc 0 ∧
    sortDFS wCyc 1 [3] 3 ⟨[], []⟩ = ⟨[], []⟩ :=
  ⟨(claim_C3_cycle_exclusion wCyc 0).1,
   (claim_C3_cycle_exclusion wCyc 0).2.1 9 (by decide),
   (claim_C3_cycle_exclusion wCyc 0).2.2 0 [3] 3 ⟨[], []⟩ (by decide)⟩

/-- Claim C4 counterexample: on the graph holding only the output node
(id 0), the resolver's returned sequence does contain the output node —
the claim that the output node is never an element of the returned
sequence is false. -/
theorem claim_C4_counterexample :
    0 ∈ topologicalSort wOut 0 ∧ topologicalSort wOut 0 = [0] := by
  constructor
  · decide
  · decide

/-- Claim C4, amended: the sequence returned by
GraphTraverser::topologicalSort contains the designated output node; the
output node is skipped by the code generator's emission loop (removing it
from the processed list does not change the emission state), and it is
processed last, specially, through generateCodeFromVarMap. -/
theorem claim_C4_amended (g : Graph) (out : Nat) (oc : Nat → Nat) :
    out ∈ topologicalSort g out ∧
    (∀ (l : List Nat) (st : GenSt),
      genFold g out oc st l = genFold g out oc st (l.filter (fun i => !(i == out)))) ∧
    (∀ st : GenSt, processNode g out oc st out = st) :=
  ⟨out_mem_topologicalSort g out,
   fun l st => genFold_filter_out g out oc l st,
   fun st => processNode_out g out oc st⟩

/-- Claim C5: if the output node is absent, generateFragmentShader emits
the fixed fallback statement assigning the diagnostic error color — the
result is a fixed text independent of the graph; and the degenerate-
resolver case is vacuous, since whenever an output node exists the
resolver's sequence contains it (and so is never empty). -/
theorem claim_C5_missing_output (params : List UniformParameter) (g g' : Graph) :
    generateFragmentShader params g none
      = shaderHeader params ++ missingOutputLine ++ "\x7d\n" ∧
    generateFragmentShader params g none = generateFragmentShader params g' none ∧
    (∀ out, out ∈ topologicalSort g out) :=
  ⟨rfl, rfl, fun out => out_mem_topologicalSort g out⟩

/-- The lossless type tokens of the HLSL dialect: the keys of the
HLSL-to-GLSL type map whose images are keys of the GLSL-to-HLSL map
(all keys except the half family). -/
def losslessHlslTypeTokens : List String :=
  ["float4x4", "float3x3", "float2x2", "float4", "float3", "float2",
   "int4", "int3", "int2", "uint4", "uint3", "uint2", "bool4", "bool3", "bool2"]

/-- The lossless type tokens of the GLSL dialect: all keys of the
GLSL-to-HLSL type map. -/
def losslessGlslTypeTokens : List String :=
  ["mat4", "mat3", "mat2", "vec4", "vec3", "vec2",
   "ivec4", "ivec3", "ivec2", "uvec4", "uvec3", "uvec2", "bvec4", "bvec3", "bvec2"]

/-- Claim C6: every type token present in both converters' type maps
round-trips — HLSL-to-GLSL then GLSL-to-HLSL returns the original HLSL
token, and the reverse order returns the original GLSL token (for example
the 3-component vector types float3/vec3).  The lossy half tokens, where
two HLSL synonyms collapse to one GLSL name, translate one way only:
half3 becomes vec3, which translates back to float3, not half3. -/
theorem claim_C6_dialect_roundtrip :
    (losslessHlslTypeTokens.all (fun t => glslToHlslTypes (hlslToGlslTypes t) == t)) = true ∧
    (losslessGlslTypeTokens.all (fun t => hlslToGlslTypes (glslToHlslTypes t) == t)) = true ∧
    hlslToGlslTypes "half3" = "vec3" ∧
    glslToHlslTypes (hlslToGlslTypes "half3") = "float3" := by
  exact ⟨by decide, by decide, by decide, by decide⟩

/-- Claim C8: an input pin with no incoming link at generation time
resolves to the call site's declared default expression (also after the
link into it was removed), never to an error; in particular the output
node with both pins unconnected emits exactly its declared defaults. -/
theorem claim_C8_default_fallback (n : GNode) (pin : String) (vm : VarMap) (dflt : String) :
    (linkOf n pin = none → getInputVar n pin vm dflt = dflt) ∧
    (linkOf (removeLink n pin) pin = none ∧ getInputVar (removeLink n pin) pin vm dflt = dflt) ∧
    (n.kind = .add → linkOf n "A" = none → linkOf n "B" = none →
      generateExpression n "Result" vm = "(0.0 + 0.0)") ∧
    (linkOf n "Color" = none → linkOf n "Alpha" = none →
      generateCodeFromVarMap n vm
        = "    vec3 finalColor = vec3(1.0, 0.5, 0.2);\n    float finalAlpha = 1.0;\n    FragColor = vec4(finalColor, finalAlpha);\n") := by
  have hrem : linkOf (removeLink n pin) pin = none := by
    unfold linkOf removeLink
    rw [List.find?_eq_none.mpr]
    · rfl
    · intro e he
      have := (List.mem_filter.mp he).2
      simpa using this
  refine ⟨?_, ⟨hrem, ?_⟩, ?_, ?_⟩
  · intro h
    simp [getInputVar, h]
  · simp [getInputVar, hrem]
  · intro hk hA hB
    simp [generateExpression, hk, getInputVar, hA, hB]
  · intro hC hA
    simp [generateCodeFromVarMap, getInputVar, hC, hA]

/-- Witness for claim C8: an add node with nothing connected resolves its
A pin to 0.0 and yields the default expression; an output node with
nothing connected emits its declared default statements. -/
theorem claim_C8_witness :
    getInputVar ⟨5, NodeKind.add, []⟩ "A" [] "0.0" = "0.0" ∧
    generateExpression ⟨5, NodeKind.add, []⟩ "Result" [] = "(0.0 + 0.0)" ∧
    generateCodeFromVarMap ⟨7, NodeKind.output, []⟩ []
      = "    vec3 finalColor = vec3(1.0, 0.5, 0.2);\n    float finalAlpha = 1.0;\n    FragColor = vec4(finalColor, finalAlpha);\n" :=
  ⟨(claim_C8_default_fallback ⟨5, .add, []⟩ "A" [] "0.0").1 (by decide),
   (claim_C8_default_fallback ⟨5, .add, []⟩ "A" [] "0.0").2.2.1 rfl (by decide) (by decide),
   (claim_C8_default_fallback ⟨7, .output, []⟩ "A" [] "0.0").2.2.2 (by decide) (by decide)⟩

/-- A node matches the setter's search when it is a parameter node whose
uniform name equals the searched name. -/
def paramMatches (name : String) (n : GNode) : Prop :=
  isParameterNode n.kind = true ∧ (getUniformParameter n.kind).name = name

instance (name : String) (n : GNode) : Decidable (paramMatches name n) :=
  inferInstanceAs (Decidable (isParameterNode n.kind = true
    ∧ (getUniformParameter n.kind).name = name))

theorem setParamGo_nomatch (name : String) (p : UniformParameter) :
    ∀ l : List GNode, (∀ n ∈ l, ¬ paramMatches name n) → setParamGo name p l = l := by
  intro l
  induction l with
  | nil => intro _; rfl
  | cons n rest ih =>
    intro h
    have hn : ¬ (isParameterNode n.kind = true ∧ (getUniformParameter n.kind).name = name) :=
      h n (by simp)
    simp only [setParamGo, if_neg hn]
    rw [ih (fun m hm => h m (by simp [hm]))]

theorem setParamGo_match (name : String) (p : UniformParameter) (n : GNode) (l2 : List GNode)
    (hn : paramMatches name n) :
    ∀ l1 : List GNode, (∀ m ∈ l1, ¬ paramMatches name m) →
      setParamGo name p (l1 ++ n :: l2) = l1 ++ setUniformValue n p :: l2 := by
  intro l1
  have hn' : isParameterNode n.kind = true ∧ (getUniformParameter n.kind).name = name := hn
  induction l1 with
  | nil =>
    intro _
    simp only [List.nil_append, setParamGo, if_pos hn']
  | cons m rest ih =>
    intro h
    have hm : ¬ (isParameterNode m.kind = true ∧ (getUniformParameter m.kind).name = name) :=
      h m (by simp)
    simp only [List.cons_append, setParamGo, if_neg hm, List.append_eq]
    rw [ih (fun e he => h e (by simp [he]))]

/-- Claim C10: setParameterValue mutates at most one node — the first
parameter node in the graph's iteration order whose uniform name matches
receives the new value, every other node is left unchanged, and when no
name matches, no node is mutated. -/
theorem claim_C10_set_parameter (g : Graph) (name : String) (p : UniformParameter) :
    ((∀ n ∈ g.nodes, ¬ paramMatches name n) → setParameterValue g name p = g) ∧
    (∀ (l1 : List GNode) (n : GNode) (l2 : List GNode),
      g.nodes = l1 ++ n :: l2 →
      (∀ m ∈ l1, ¬ paramMatches name m) →
      paramMatches name n →
      (setParameterValue g name p).nodes = l1 ++ setUniformValue n p :: l2) := by
  constructor
  · intro h
    show (⟨setParamGo name p g.nodes⟩ : Graph) = g
    rw [setParamGo_nomatch name p g.nodes h]
  · intro l1 n l2 hsplit h1 hn
    show setParamGo name p g.nodes = l1 ++ setUniformValue n p :: l2
    rw [hsplit]
    exact setParamGo_match name p n l2 hn l1 h1

/-! ### The saturate rewrite -/

/-- A single-argument saturate call as written text. -/
def satCall (x : List Char) : List Char := satLit ++ '(' :: (x ++ [')'])

theorem takeLit_self : ∀ (p r : List Char), takeLit p (p ++ r) = some r := by
  intro p
  induction p with
  | nil => intro r; rfl
  | cons a t ih => intro r; simp [takeLit, ih r]

theorem takeLit_length : ∀ (p s r : List Char), takeLit p s = some r →
    s.length = p.length + r.length := by
  intro p
  induction p with
  | nil => intro s r h; simp [takeLit] at h; simp [h]
  | cons a t ih =>
    intro s r h
    cases s with
    | nil => simp [takeLit] at h
    | cons b s' =>
      by_cases hab : a == b
      · simp only [takeLit, hab, if_true] at h
        have := ih s' r h
        simp [this]
        omega
      · simp [takeLit, hab] at h

theorem splitClose_no_close : ∀ (x b : List Char), ')' ∉ x →
    splitClose (x ++ ')' :: b) = some (x, b) := by
  intro x
  induction x with
  | nil => intro b _; simp [splitClose]
  | cons c x' ih =>
    intro b hc
    have h1 : ¬ c = ')' := fun h => hc (by simp [h])
    have hcne : (c == ')') = false := by simp [h1]
    simp only [List.cons_append, splitClose, hcne, Bool.false_eq_true, if_false]
    rw [show splitClose (x'.append (')' :: b)) = splitClose (x' ++ ')' :: b) from rfl,
      ih b (fun h => hc (by simp [h]))]
    rfl

theorem splitClose_length : ∀ (s sp rest : List Char), splitClose s = some (sp, rest) →
    s.length = sp.length + 1 + rest.length := by
  intro s
  induction s with
  | nil => intro sp rest h; simp [splitClose] at h
  | cons c s' ih =>
    intro sp rest h
    cases hc : (c == ')') with
    | true =>
      simp only [splitClose, hc, if_true] at h
      have h1' : sp = [] := (congrArg Prod.fst (Option.some.inj h)).symm
      have h2' : rest = s' := (congrArg Prod.snd (Option.some.inj h)).symm
      subst h1'
      subst h2'
      simp only [List.length_cons, List.length_nil]
      omega
    | false =>
      simp only [splitClose, hc, Bool.false_eq_true, if_false] at h
      cases hs : splitClose s' with
      | none => rw [hs] at h; simp at h
      | some p =>
        rw [hs] at h
        have h' : (c :: p.1, p.2) = (sp, rest) := by
          have hsome : some (c :: p.1, p.2) = some (sp, rest) := h
          exact Option.some.inj hsome
        have hlen := ih p.1 p.2 (by rw [hs])
        have hsp : sp = c :: p.1 := (congrArg Prod.fst h').symm
        have hrest : rest = p.2 := (congrArg Prod.snd h').symm
        subst hsp
        subst hrest
        simp only [List.length_cons]
        omega

theorem satGroup_eq_nil (span : List Char) (h : span.dropWhile isSpaceCh = []) :
    satGroup span = span.drop (span.length - 1) := by
  simp [satGroup, h]

theorem satGroup_eq_cons (span : List Char) (c : Char) (t : List Char)
    (h : span.dropWhile isSpaceCh = c :: t) : satGroup span = c :: t := by
  simp [satGroup, h]

theorem matchAfterLit_shrink (u gp rest : List Char)
    (h : matchAfterLit u = some (gp, rest)) : rest.length < u.length := by
  cases u with
  | nil => simp [matchAfterLit] at h
  | cons c r3 =>
    by_cases hc : c = '('
    · simp only [matchAfterLit, if_pos hc] at h
      cases h3 : splitClose r3 with
      | none => rw [h3] at h; simp at h
      | some p =>
        obtain ⟨sp, rst⟩ := p
        rw [h3] at h
        cases hemp : sp.isEmpty with
        | true => simp [hemp] at h
        | false =>
          simp only [hemp, Bool.false_eq_true, if_false, Option.some.injEq,
            Prod.mk.injEq] at h
          have hlen3 : r3.length = sp.length + 1 + rst.length :=
            splitClose_length r3 sp rst h3
          have hrest : rest = rst := h.2.symm
          rw [hrest]
          simp only [List.length_cons]
          omega
    · simp [matchAfterLit, hc] at h

theorem matchSat_shrink (s gp rest : List Char) (h : matchSat s = some (gp, rest)) :
    rest.length < s.length := by
  unfold matchSat at h
  cases h1 : takeLit satLit s with
  | none => rw [h1] at h; simp at h
  | some r1 =>
    rw [h1] at h
    simp only [Option.some_bind] at h
    have hlen1 : s.length = 8 + r1.length := takeLit_length satLit s r1 h1
    have hlen2 : (r1.dropWhile isSpaceCh).length ≤ r1.length :=
      (List.dropWhile_sublist isSpaceCh).length_le
    have := matchAfterLit_shrink (r1.dropWhile isSpaceCh) gp rest h
    omega

/-- The convertSaturate regex matches a well-formed saturate call whose
argument is nonempty, free of close parentheses and does not start with
whitespace, and captures the argument exactly. -/
theorem matchSat_call (x b : List Char) (hx : x ≠ []) (hxc : ')' ∉ x)
    (hxw : isSpaceCh (x.headD ')') = false) :
    matchSat (satCall x ++ b) = some (x, b) := by
  have hshape : satCall x ++ b = satLit ++ ('(' :: (x ++ ')' :: b)) := by
    simp [satCall]
  rw [hshape]
  unfold matchSat
  rw [takeLit_self satLit ('(' :: (x ++ ')' :: b))]
  simp only [Option.some_bind]
  have hdrop : ('(' :: (x ++ ')' :: b)).dropWhile isSpaceCh = '(' :: (x ++ ')' :: b) := by
    have hsp : isSpaceCh '(' = false := by decide
    rw [List.dropWhile_cons, hsp]
    simp
  rw [hdrop]
  obtain ⟨c, x', rfl⟩ : ∃ c x', x = c :: x' := by
    cases x with
    | nil => exact absurd rfl hx
    | cons c x' => exact ⟨c, x', rfl⟩
  have hcw : isSpaceCh c = false := by simpa using hxw
  have hgroup : satGroup (c :: x') = c :: x' := by
    refine satGroup_eq_cons (c :: x') c x' ?_
    rw [List.dropWhile_cons]
    simp [hcw]
  simp only [matchAfterLit, if_pos rfl]
  rw [splitClose_no_close (c :: x') b hxc]
  simp [hgroup]

theorem convSatGo_nil (f : Nat) : convSatGo f [] = [] := by
  cases f <;> rfl

theorem matchSat_nil : matchSat [] = none := rfl

theorem convSatGo_match (f : Nat) (s gp rest : List Char)
    (h : matchSat s = some (gp, rest)) :
    convSatGo (f + 1) s = satRepl gp ++ convSatGo f rest := by
  cases s with
  | nil => rw [matchSat_nil] at h; simp at h
  | cons c cs => simp [convSatGo, h]

theorem convSatGo_nomatch (f : Nat) (c : Char) (cs : List Char)
    (h : matchSat (c :: cs) = none) :
    convSatGo (f + 1) (c :: cs) = c :: convSatGo f cs := by
  simp [convSatGo, h]

/-- The regex-replace scan returns the same text for every fuel of at
least the text's length. -/
theorem convSatGo_stable : ∀ (n : Nat) (s : List Char), s.length ≤ n →
    ∀ f f', s.length ≤ f → s.length ≤ f' → convSatGo f s = convSatGo f' s := by
  intro n
  induction n with
  | zero =>
    intro s hs f f' _ _
    have : s = [] := List.length_eq_zero.mp (by omega)
    subst this
    rw [convSatGo_nil, convSatGo_nil]
  | succ n ih =>
    intro s hs f f' hf hf'
    cases s with
    | nil => rw [convSatGo_nil, convSatGo_nil]
    | cons c cs =>
      have hlen : cs.length + 1 ≤ n + 1 := by simpa using hs
      have hfl : cs.length + 1 ≤ f := by simpa using hf
      have hfl' : cs.length + 1 ≤ f' := by simpa using hf'
      obtain ⟨a, rfl⟩ : ∃ a, f = a + 1 := ⟨f - 1, by omega⟩
      obtain ⟨b', rfl⟩ : ∃ b', f' = b' + 1 := ⟨f' - 1, by omega⟩
      cases hm : matchSat (c :: cs) with
      | some p =>
        obtain ⟨gp, rest⟩ := p
        rw [convSatGo_match a _ _ _ hm, convSatGo_match b' _ _ _ hm]
        have hshr := matchSat_shrink _ _ _ hm
        simp only [List.length_cons] at hshr
        congr 1
        exact ih rest (by omega) a b' (by omega) (by omega)
      | none =>
        rw [convSatGo_nomatch a c cs hm, convSatGo_nomatch b' c cs hm]
        congr 1
        exact ih cs (by omega) a b' (by omega) (by omega)

theorem satCall_length (x : List Char) : (satCall x).length = x.length + 10 := by
  simp [satCall, satLit]

/-- Claim C7, amended: for every occurrence of a single-argument
saturate(x) call whose argument x is nonempty, contains no close
parenthesis and does not start with whitespace, and which is the leftmost
match, the saturate rewrite of the HLSL-to-GLSL converter produces the
surrounding text with the call replaced by clamp(x, 0.0, 1.0) — the
argument is preserved exactly — and continues rewriting the remaining
text; for arguments containing a close parenthesis (e.g. nested calls)
the regex truncates the argument at the first close parenthesis, so the
original claim fails. -/
theorem claim_C7_saturate_rewrite (x b : List Char) (hx : x ≠ []) (hxc : ')' ∉ x)
    (hxw : isSpaceCh (x.headD ')') = false) :
    ∀ a : List Char,
      (∀ k, k < a.length → matchSat ((a ++ (satCall x ++ b)).drop k) = none) →
      convSatGo (a ++ (satCall x ++ b)).length (a ++ (satCall x ++ b))
        = a ++ (satRepl x ++ convSatGo b.length b) := by
  intro a
  induction a with
  | nil =>
    intro _
    simp only [List.nil_append]
    have hm := matchSat_call x b hx hxc hxw
    have hpos : 0 < (satCall x ++ b).length := by
      rw [List.length_append, satCall_length]
      omega
    obtain ⟨k, hk⟩ : ∃ k, (satCall x ++ b).length = k + 1 :=
      ⟨(satCall x ++ b).length - 1, by omega⟩
    rw [hk, convSatGo_match k _ _ _ hm]
    congr 1
    refine convSatGo_stable k b ?_ k b.length ?_ (Nat.le_refl _)
    · have := satCall_length x
      rw [List.length_append] at hk
      omega
    · have := satCall_length x
      rw [List.length_append] at hk
      omega
  | cons c a' ih =>
    intro hno
    have h0 : matchSat (c :: (a' ++ (satCall x ++ b))) = none := by
      have h := hno 0 (by simp)
      simpa using h
    simp only [List.cons_append, List.length_cons]
    rw [convSatGo_nomatch _ _ _ h0]
    rw [ih ?_]
    intro k hk
    have h := hno (k + 1) (by simp; omega)
    simpa [List.drop_succ_cons] using h

/-- Witness for the amended claim C7: in context, saturate(x) becomes
clamp(x, 0.0, 1.0) with the argument preserved. -/
theorem claim_C7_witness :
    convSatGo ("y = ".data ++ (satCall "x".data ++ ";".data)).length
        ("y = ".data ++ (satCall "x".data ++ ";".data))
      = "y = ".data ++ (satRepl "x".data ++ convSatGo ";".data.length ";".data) :=
  claim_C7_saturate_rewrite "x".data ";".data (by decide) (by decide) (by decide)
    "y = ".data (by decide)

/-- Claim C7 counterexample: on the single-argument call
saturate(abs(x)) the converter emits clamp(abs(x, 0.0, 1.0)) — the
argument abs(x) is truncated at its close parenthesis, not preserved, so
the rewrite is not clamp(abs(x), 0.0, 1.0). -/
theorem claim_C7_counterexample :
    convertSaturate "saturate(abs(x))" = "clamp(abs(x, 0.0, 1.0))" ∧
    ("clamp(abs(x, 0.0, 1.0))" : String) ≠ "clamp(abs(x), 0.0, 1.0)" :=
  ⟨by decide, by decide⟩

/-! ### Structure of the generator state across the emission loop -/

theorem lookupNode_id (g : Graph) (i : Nat) (n : GNode) (h : lookupNode g i = some n) :
    n.id = i := by
  have := List.find?_some h
  simpa using this

/-- Growth of the generator state over one or more emission steps whose
varMap keys all satisfy P: declarations are appended with fresh indices,
varMap entries are prepended, the counter does not decrease. -/
def GenLe (P : Nat × String → Prop) (st st' : GenSt) : Prop :=
  (∃ nd, st'.decls = st.decls ++ nd ∧ ∀ d ∈ nd, st.counter ≤ d.idx ∧ d.idx < st'.counter) ∧
  (∃ nv, st'.vm = nv ++ st.vm ∧ ∀ e ∈ nv, P e.1) ∧
  st.counter ≤ st'.counter

theorem genLe_refl (P : Nat × String → Prop) (st : GenSt) : GenLe P st st :=
  ⟨⟨[], by simp, by simp⟩, ⟨[], by simp [VarMap], by simp⟩, Nat.le_refl _⟩

theorem genLe_trans {P : Nat × String → Prop} {a b c : GenSt}
    (h1 : GenLe P a b) (h2 : GenLe P b c) : GenLe P a c := by
  obtain ⟨⟨nd1, hd1, hb1⟩, ⟨nv1, hv1, hk1⟩, hc1⟩ := h1
  obtain ⟨⟨nd2, hd2, hb2⟩, ⟨nv2, hv2, hk2⟩, hc2⟩ := h2
  refine ⟨⟨nd1 ++ nd2, by simp [hd2, hd1], ?_⟩, ⟨nv2 ++ nv1, by simp [hv2, hv1], ?_⟩, by omega⟩
  · intro d hd
    rcases List.mem_append.mp hd with h | h
    · have := hb1 d h
      omega
    · have := hb2 d h
      omega
  · intro e he
    rcases List.mem_append.mp he with h | h
    · exact hk2 e h
    · exact hk1 e h

theorem genLe_mono {P Q : Nat × String → Prop} {a b : GenSt}
    (h : GenLe P a b) (hpq : ∀ k, P k → Q k) : GenLe Q a b := by
  obtain ⟨hd, ⟨nv, hv, hk⟩, hc⟩ := h
  exact ⟨hd, ⟨nv, hv, fun e he => hpq e.1 (hk e he)⟩, hc⟩

theorem vmLookup_prepend (nv vm : List ((Nat × String) × String)) (X : Nat) (p : String)
    (h : ∀ e ∈ nv, ¬(e.1.1 = X ∧ e.1.2 = p)) :
    vmLookup (nv ++ vm) X p = vmLookup vm X p := by
  induction nv with
  | nil => rfl
  | cons e rest ih =>
    have he : (e.1.1 == X && e.1.2 == p) = false := by
      have := h e (by simp)
      rcases Decidable.not_and_iff_or_not.mp this with h' | h'
      · simp [h']
      · simp [h']
    show vmLookup (e :: (rest ++ vm)) X p = vmLookup vm X p
    unfold vmLookup
    rw [List.find?_cons, he]
    exact ih (fun e' he' => h e' (by simp [he']))

theorem processPin_genLe (g : Graph) (oc : Nat → Nat) (n : GNode) (st : GenSt) (pin : String) :
    GenLe (fun k => k.1 = n.id ∧ k.2 = pin) st (processPin g oc n st pin) := by
  unfold processPin
  by_cases h : isSourceNode n.kind = true ∧ oc n.id ≤ 1
  · rw [if_pos h]
    exact ⟨⟨[], by simp, by simp⟩,
      ⟨[((n.id, pin), generateExpression n pin st.vm)], rfl, by simp⟩, Nat.le_refl _⟩
  · rw [if_neg h]
    refine ⟨⟨[⟨st.counter, typeToGLSL (getOutputType g (g.nodes.length + 1) n pin),
        generateExpression n pin st.vm⟩], rfl, ?_⟩,
      ⟨[((n.id, pin), varNameOf st.counter)], rfl, by simp⟩, by simp⟩
    intro d hd
    have : d = ⟨st.counter, typeToGLSL (getOutputType g (g.nodes.length + 1) n pin),
        generateExpression n pin st.vm⟩ := by simpa using hd
    subst this
    simp

theorem processNode_genLe (g : Graph) (out : Nat) (oc : Nat → Nat) (st : GenSt) (i : Nat) :
    GenLe (fun k => k.1 = i) st (processNode g out oc st i) := by
  unfold processNode
  by_cases h : i = out
  · rw [if_pos h]
    exact genLe_refl _ st
  · rw [if_neg h]
    cases hl : lookupNode g i with
    | none => exact genLe_refl _ st
    | some n =>
      have hid := lookupNode_id g i n hl
      have hfold : GenLe (fun k => k.1 = n.id) st
          ((kindOutNames n.kind).foldl (processPin g oc n) st) := by
        refine foldl_rel (genLe_refl _) (fun _ _ _ => genLe_trans) _ (kindOutNames n.kind) st ?_
        intro st' pin _
        exact genLe_mono (processPin_genLe g oc n st' pin) (fun k hk => hk.1)
      exact genLe_mono hfold (fun k hk => hid ▸ hk)

theorem genFold_genLe (g : Graph) (out : Nat) (oc : Nat → Nat) (l : List Nat) (st : GenSt) :
    GenLe (fun k => k.1 ∈ l) st (genFold g out oc st l) := by
  refine foldl_rel (genLe_refl _) (fun _ _ _ => genLe_trans) _ l st ?_
  intro st' i hi
  exact genLe_mono (processNode_genLe g out oc st' i) (fun k hk => hk ▸ hi)

/-- Nodes not in the processed list leave their varMap entries
untouched. -/
theorem vmLookup_genFold_stable (g : Graph) (out : Nat) (oc : Nat → Nat) (l : List Nat)
    (st : GenSt) (X : Nat) (p : String) (hX : X ∉ l) :
    vmLookup (genFold g out oc st l).vm X p = vmLookup st.vm X p := by
  obtain ⟨_, ⟨nv, hv, hk⟩, _⟩ := genFold_genLe g out oc l st
  rw [hv]
  refine vmLookup_prepend nv st.vm X p ?_
  intro e he hc
  exact hX (hc.1 ▸ hk e he)

/-- Declarations carry indices below the counter, pairwise distinct. -/
def DeclInv (st : GenSt) : Prop :=
  (∀ d ∈ st.decls, d.idx < st.counter) ∧ (st.decls.map (fun d => d.idx)).Nodup

theorem processPin_declInv (g : Graph) (oc : Nat → Nat) (n : GNode) (st : GenSt) (pin : String)
    (h : DeclInv st) : DeclInv (processPin g oc n st pin) := by
  obtain ⟨hb, hnd⟩ := h
  unfold processPin
  by_cases hc : isSourceNode n.kind = true ∧ oc n.id ≤ 1
  · rw [if_pos hc]
    exact ⟨hb, hnd⟩
  · rw [if_neg hc]
    constructor
    · intro d hd
      rcases List.mem_append.mp hd with h' | h'
      · have := hb d h'
        simp only
        omega
      · have : d = ⟨st.counter, typeToGLSL (getOutputType g (g.nodes.length + 1) n pin),
            generateExpression n pin st.vm⟩ := by simpa using h'
        subst this
        simp
    · simp only [List.map_append, List.map_cons, List.map_nil]
      rw [List.nodup_append]
      refine ⟨hnd, by simp, ?_⟩
      intro a ha
      simp only [List.mem_map] at ha
      obtain ⟨d, hd, hda⟩ := ha
      have := hb d hd
      simp only [List.mem_singleton]
      omega

theorem processNode_declInv (g : Graph) (out : Nat) (oc : Nat → Nat) (st : GenSt) (i : Nat)
    (h : DeclInv st) : DeclInv (processNode g out oc st i) := by
  unfold processNode
  by_cases hio : i = out
  · rw [if_pos hio]; exact h
  · rw [if_neg hio]
    cases hl : lookupNode g i with
    | none => exact h
    | some n =>
      refine @foldl_rel String GenSt (fun a b => DeclInv a → DeclInv b)
        (fun s hinv => hinv) (fun a b c hab hbc hinv => hbc (hab hinv))
        (processPin g oc n) (kindOutNames n.kind) st ?_ h
      intro st' pin _
      exact processPin_declInv g oc n st' pin

theorem genFold_declInv (g : Graph) (out : Nat) (oc : Nat → Nat) (l : List Nat) (st : GenSt)
    (h : DeclInv st) : DeclInv (genFold g out oc st l) := by
  refine @foldl_rel Nat GenSt (fun a b => DeclInv a → DeclInv b)
    (fun s hinv => hinv) (fun a b c hab hbc hinv => hbc (hab hinv))
    (processNode g out oc) l st ?_ h
  intro st' i _
  exact processNode_declInv g out oc st' i

theorem kindOutNames_nodup (k : NodeKind) : (kindOutNames k).Nodup := by
  cases k <;> simp [kindOutNames]

/-- A positive sum of mapped values names a positive member. -/
theorem sum_pos_mem {α : Type _} (f : α → Nat) :
    ∀ l : List α, 0 < (l.map f).sum → ∃ i ∈ l, 0 < f i := by
  intro l
  induction l with
  | nil => simp
  | cons a t ih =>
    intro h
    by_cases ha : 0 < f a
    · exact ⟨a, by simp, ha⟩
    · have : (t.map f).sum > 0 := by
        simp only [List.map_cons, List.sum_cons] at h
        omega
      obtain ⟨i, hi, hfi⟩ := ih this
      exact ⟨i, by simp [hi], hfi⟩

/-- A pair sublist splits the list into three segments. -/
theorem pair_sublist_split {x y : Nat} :
    ∀ l : List Nat, [x, y].Sublist l → ∃ u v w, l = u ++ x :: (v ++ y :: w) := by
  intro l
  induction l with
  | nil => intro h; simp at h
  | cons c t ih =>
    intro h
    cases h with
    | cons _ h' =>
      obtain ⟨u, v, w, huvw⟩ := ih h'
      exact ⟨c :: u, v, w, by simp [huvw]⟩
    | cons₂ _ h' =>
      have hy : y ∈ t := List.singleton_sublist.mp h'
      obtain ⟨v, w, hvw⟩ := List.append_of_mem hy
      exact ⟨[], v, w, by simp [hvw]⟩

/-- A duplicate-free list splits uniquely at an element. -/
theorem nodup_split_unique {y : Nat} :
    ∀ (a a' b b' : List Nat), (a ++ y :: b).Nodup → a ++ y :: b = a' ++ y :: b' →
      a = a' ∧ b = b' := by
  intro a
  induction a with
  | nil =>
    intro a' b b' hnd heq
    cases a' with
    | nil => simpa using heq
    | cons c a2 =>
      exfalso
      have heq' : y :: b = c :: (a2 ++ y :: b') := by simpa using heq
      have hyc : y = c := (List.cons.inj heq').1
      have hb : b = a2 ++ y :: b' := (List.cons.inj heq').2
      have hyb : y ∈ b := by
        rw [hb]
        exact List.mem_append.mpr (Or.inr (by simp))
      have hnd' : (y :: b).Nodup := by simpa using hnd
      rw [List.nodup_cons] at hnd'
      exact hnd'.1 hyb
  | cons c a2 ih =>
    intro a' b b' hnd heq
    cases a' with
    | nil =>
      exfalso
      have heq' : c :: (a2 ++ y :: b) = y :: b' := by simpa using heq
      have hcy : c = y := (List.cons.inj heq').1
      have hrest : a2 ++ y :: b = b' := (List.cons.inj heq').2
      have hnd' : (c :: (a2 ++ y :: b)).Nodup := by simpa using hnd
      rw [List.nodup_cons] at hnd'
      exact hnd'.1 (hcy ▸ List.mem_append.mpr (Or.inr (by simp)))
    | cons c' a2' =>
      have heq' : c :: (a2 ++ y :: b) = c' :: (a2' ++ y :: b') := by simpa using heq
      have hcc : c = c' := (List.cons.inj heq').1
      have hrest : a2 ++ y :: b = a2' ++ y :: b' := (List.cons.inj heq').2
      have hnd' : (c :: (a2 ++ y :: b)).Nodup := by simpa using hnd
      rw [List.nodup_cons] at hnd'
      obtain ⟨ha, hb⟩ := ih a2' b b' hnd'.2 hrest
      exact ⟨by rw [hcc, ha], hb⟩

/-- In a duplicate-free list, an element that occurs before y occurs in
the prefix of any split at y. -/
theorem before_split {x y : Nat} (l a b : List Nat) (hnd : l.Nodup)
    (hxy : [x, y].Sublist l) (hsplit : l = a ++ y :: b) : x ∈ a := by
  obtain ⟨u, v, w, huvw⟩ := pair_sublist_split l hxy
  have heq : a ++ y :: b = (u ++ x :: v) ++ y :: w := by
    rw [← hsplit, huvw]
    simp
  have hnd' : (a ++ y :: b).Nodup := hsplit ▸ hnd
  obtain ⟨ha, _⟩ := nodup_split_unique a (u ++ x :: v) b w hnd' heq
  rw [ha]
  exact List.mem_append.mpr (Or.inr (by simp))

/-- With pairwise-distinct mapped keys, exactly one member carries a
given member's key. -/
theorem count_filter_eq_one {α : Type _} [DecidableEq α] (f : α → Nat) :
    ∀ l : List α, (l.map f).Nodup → ∀ d ∈ l, (l.filter (fun e => f e == f d)).length = 1 := by
  intro l
  induction l with
  | nil => simp
  | cons a t ih =>
    intro hnd d hd
    have hnd' : (t.map f).Nodup := by
      simp only [List.map_cons, List.nodup_cons] at hnd
      exact hnd.2
    have hfa : f a ∉ t.map f := by
      simp only [List.map_cons, List.nodup_cons] at hnd
      exact hnd.1
    rcases List.mem_cons.mp hd with hda | hdt
    · subst hda
      have hzero : (t.filter (fun e => f e == f d)).length = 0 := by
        rw [List.length_eq_zero]
        rw [List.filter_eq_nil_iff]
        intro e he hc
        exact hfa (by
          simp only [List.mem_map]
          exact ⟨e, he, by simpa using hc⟩)
      simp [List.filter_cons, hzero]
    · have hne : (f a == f d) = false := by
        by_cases h : f a = f d
        · exfalso
          exact hfa (by
            simp only [List.mem_map]
            exact ⟨d, hdt, h.symm⟩)
        · simp [h]
      simp only [List.filter_cons, hne, Bool.false_eq_true, if_false]
      exact ih hnd' d hdt

theorem vmLookup_head (i : Nat) (q v : String) (vm : VarMap) :
    vmLookup (((i, q), v) :: vm) i q = some v := by
  unfold vmLookup
  rw [List.find?_cons]
  simp

/-- Hoisting inside one node's pin loop: when the variable branch is
taken, every pin gets exactly one fresh declaration and a varMap binding
to its variable name. -/
theorem pinFold_hoists (g : Graph) (oc : Nat → Nat) (n : GNode)
    (hcond : ¬(isSourceNode n.kind = true ∧ oc n.id ≤ 1)) :
    ∀ (ps : List String), ps.Nodup → ∀ (st : GenSt) (p : String), p ∈ ps →
      ∃ d : Decl, d ∈ (ps.foldl (processPin g oc n) st).decls ∧ st.counter ≤ d.idx ∧
        vmLookup (ps.foldl (processPin g oc n) st).vm n.id p = some (varNameOf d.idx) ∧
        (ps = [p] → d = ⟨st.counter, typeToGLSL (getOutputType g (g.nodes.length + 1) n p),
            generateExpression n p st.vm⟩) := by
  intro ps
  induction ps with
  | nil => intro _ st p hp; simp at hp
  | cons q rest ih =>
    intro hnd st p hp
    have hst1d : (processPin g oc n st q).decls
        = st.decls ++ [⟨st.counter, typeToGLSL (getOutputType g (g.nodes.length + 1) n q),
            generateExpression n q st.vm⟩] := by
      unfold processPin
      rw [if_neg hcond]
    have hst1v : (processPin g oc n st q).vm
        = ((n.id, q), varNameOf st.counter) :: st.vm := by
      unfold processPin
      rw [if_neg hcond]
    have hst1c : (processPin g oc n st q).counter = st.counter + 1 := by
      unfold processPin
      rw [if_neg hcond]
    have hfold : (q :: rest).foldl (processPin g oc n) st
        = rest.foldl (processPin g oc n) (processPin g oc n st q) := by
      simp
    have hrestle : GenLe (fun k => k.1 = n.id ∧ k.2 ∈ rest) (processPin g oc n st q)
        (rest.foldl (processPin g oc n) (processPin g oc n st q)) := by
      refine foldl_rel (genLe_refl _) (fun _ _ _ => genLe_trans) _ rest _ ?_
      intro st' pin hpin
      exact genLe_mono (processPin_genLe g oc n st' pin)
        (fun k hk => ⟨hk.1, hk.2 ▸ hpin⟩)
    have hqrest : q ∉ rest := (List.nodup_cons.mp hnd).1
    rcases List.mem_cons.mp hp with hpq | hprest
    · subst hpq
      refine ⟨⟨st.counter, typeToGLSL (getOutputType g (g.nodes.length + 1) n p),
          generateExpression n p st.vm⟩, ?_, Nat.le_refl _, ?_, ?_⟩
      · obtain ⟨⟨nd, hnd2, _⟩, _, _⟩ := hrestle
        rw [hfold, hnd2, hst1d]
        simp
      · obtain ⟨_, ⟨nv, hv, hk⟩, _⟩ := hrestle
        rw [hfold, hv]
        rw [vmLookup_prepend nv _ n.id p ?_]
        · rw [hst1v]
          exact vmLookup_head n.id p (varNameOf st.counter) st.vm
        · intro e he hc
          exact hqrest (hc.2 ▸ (hk e he).2)
      · intro _
        rfl
    · have hnd' : rest.Nodup := (List.nodup_cons.mp hnd).2
      obtain ⟨d, hd1, hd2, hd3, _⟩ := ih hnd' (processPin g oc n st q) p hprest
      refine ⟨d, by rw [hfold]; exact hd1, ?_, by rw [hfold]; exact hd3, ?_⟩
      · rw [hst1c] at hd2
        omega
      · intro hps
        exfalso
        have : rest = [] := (List.cons.inj hps).2
        rw [this] at hprest
        simp at hprest

/-- Hoisting at one node of the emission loop: a non-inlined node gets,
for each output pin, a fresh declaration and a varMap binding to its
variable name; a single-output node's declaration carries exactly its
generated expression against the entry varMap. -/
theorem processNode_hoists (g : Graph) (out : Nat) (oc : Nat → Nat) (X : Nat) (n : GNode)
    (st : GenSt) (hne : X ≠ out) (hlk : lookupNode g X = some n)
    (hcond : ¬(isSourceNode n.kind = true ∧ oc X ≤ 1)) (p : String)
    (hp : p ∈ kindOutNames n.kind) :
    ∃ d : Decl, d ∈ (processNode g out oc st X).decls ∧ st.counter ≤ d.idx ∧
      vmLookup (processNode g out oc st X).vm X p = some (varNameOf d.idx) ∧
      (kindOutNames n.kind = [p] → d = ⟨st.counter,
        typeToGLSL (getOutputType g (g.nodes.length + 1) n p),
        generateExpression n p st.vm⟩) := by
  have hid := lookupNode_id g X n hlk
  have hstep : processNode g out oc st X = (kindOutNames n.kind).foldl (processPin g oc n) st := by
    unfold processNode
    rw [if_neg hne, hlk]
  rw [hstep]
  have hcond' : ¬(isSourceNode n.kind = true ∧ oc n.id ≤ 1) := by
    rw [hid]
    exact hcond
  have := pinFold_hoists g oc n hcond' (kindOutNames n.kind) (kindOutNames_nodup n.kind) st p hp
  rw [hid] at this
  exact this

theorem getInputVar_connected (n : GNode) (pin : String) (vm : VarMap) (dflt : String)
    (X : Nat) (p v : String) (hl : linkOf n pin = some (X, p))
    (hv : vmLookup vm X p = some v) : getInputVar n pin vm dflt = v := by
  unfold getInputVar
  rw [hl]
  show (match vmLookup vm X p with | some v => v | none => dflt) = v
  rw [hv]

theorem genFold_append (g : Graph) (out : Nat) (oc : Nat → Nat) (st : GenSt)
    (l1 l2 : List Nat) (i : Nat) :
    genFold g out oc st (l1 ++ i :: l2)
      = genFold g out oc (processNode g out oc (genFold g out oc st l1) i) l2 := by
  simp [genFold, List.foldl_append]

/-- Claim C2, amended: in a graph whose reachable subgraph is cycle-free
(ranked) and for a node X processed by the resolver whose outputs feed at
least two input pins of resolver-processed nodes (the generator's own
fan-out count), a single generation pass emits exactly one declaration
bound to X's output pin p: the final lookup table maps (X, p) to that
declaration's variable name, the declaration's index occurs exactly once,
every processed consumer of (X, p) appears after X and resolves its input
to that same variable name at its own processing step, the output node's
final statements resolve (X, p) to the same name, and for a single-output
node the declaration carries exactly X's generated expression. -/
theorem claim_C2_fanout_hoisting (g : Graph) (out : Nat) (r : Nat → Nat)
    (hr : ∀ y x, Reach g out y → x ∈ deps g y → r x < r y)
    (X : Nat) (n : GNode) (p : String)
    (hne : X ≠ out) (hlk : lookupNode g X = some n) (hp : p ∈ kindOutNames n.kind)
    (hfan : 2 ≤ outCount g (topologicalSort g out) X) :
    ∃ d : Decl,
      d ∈ (genState g out).decls ∧
      vmLookup (genState g out).vm X p = some (varNameOf d.idx) ∧
      ((genState g out).decls.filter (fun e => e.idx == d.idx)).length = 1 ∧
      (∀ (Y : Nat) (nY : GNode) (q dflt : String),
        Y ∈ topologicalSort g out → lookupNode g Y = some nY →
        q ∈ kindInNames nY.kind → linkOf nY q = some (X, p) →
        [X, Y].Sublist (topologicalSort g out) ∧
        ∀ m1 m2, topologicalSort g out = m1 ++ Y :: m2 →
          getInputVar nY q
              (genFold g out (outCount g (topologicalSort g out)) ⟨[], [], 0⟩ m1).vm dflt
            = varNameOf d.idx) ∧
      (∀ q dflt, linkOf (outNodeOf g out) q = some (X, p) →
        getInputVar (outNodeOf g out) q (genState g out).vm dflt = varNameOf d.idx) ∧
      (kindOutNames n.kind = [p] →
        ∀ m1 m2, topologicalSort g out = m1 ++ X :: m2 →
          d.ty = typeToGLSL (getOutputType g (g.nodes.length + 1) n p) ∧
          d.expr = generateExpression n p
            (genFold g out (outCount g (topologicalSort g out)) ⟨[], [], 0⟩ m1).vm) := by
  have hND := topologicalSort_nodup g out
  obtain ⟨hGood, hReach⟩ := topologicalSort_good g out r hr
  have hX : X ∈ topologicalSort g out := by
    have heq : outCount g (topologicalSort g out) X
        = ((topologicalSort g out).map (fun i => (deps g i).count X)).sum := rfl
    have hpos : 0 < ((topologicalSort g out).map (fun i => (deps g i).count X)).sum := by
      omega
    obtain ⟨i, hiL, hic⟩ := sum_pos_mem _ (topologicalSort g out) hpos
    have hXdep : X ∈ deps g i := List.count_pos_iff.mp hic
    rcases hGood i hiL X hXdep with h | h
    · simp at h
    · exact (List.Sublist.subset h) (by simp)
  obtain ⟨m1, m2, hsplit⟩ := List.append_of_mem hX
  obtain ⟨hm1nd, hxm2nd, hdisj⟩ := List.nodup_append.mp (by rw [← hsplit]; exact hND)
  have hXm1 : X ∉ m1 := fun hc => (hdisj hc) (by simp)
  have hXm2 : X ∉ m2 := by
    rw [List.nodup_cons] at hxm2nd
    exact hxm2nd.1
  have hcond : ¬(isSourceNode n.kind = true ∧ outCount g (topologicalSort g out) X ≤ 1) := by
    rintro ⟨_, hle⟩
    omega
  have hgenstate : genState g out
      = genFold g out (outCount g (topologicalSort g out))
          (processNode g out (outCount g (topologicalSort g out))
            (genFold g out (outCount g (topologicalSort g out)) ⟨[], [], 0⟩ m1) X) m2 := by
    show genFold g out (outCount g (topologicalSort g out)) ⟨[], [], 0⟩ (topologicalSort g out)
      = _
    rw [hsplit, genFold_append]
  obtain ⟨d, hd_mem, hd_le, hd_vm, hd_single⟩ :=
    processNode_hoists g out (outCount g (topologicalSort g out)) X n
      (genFold g out (outCount g (topologicalSort g out)) ⟨[], [], 0⟩ m1) hne hlk hcond p hp
  have hd_final_mem : d ∈ (genState g out).decls := by
    rw [hgenstate]
    obtain ⟨⟨nd, hnd2, _⟩, _, _⟩ := genFold_genLe g out (outCount g (topologicalSort g out)) m2
      (processNode g out (outCount g (topologicalSort g out))
        (genFold g out (outCount g (topologicalSort g out)) ⟨[], [], 0⟩ m1) X)
    rw [hnd2]
    exact List.mem_append.mpr (Or.inl hd_mem)
  have hd_final_vm : vmLookup (genState g out).vm X p = some (varNameOf d.idx) := by
    rw [hgenstate, vmLookup_genFold_stable g out _ m2 _ X p hXm2]
    exact hd_vm
  have hinv : DeclInv (genState g out) := by
    show DeclInv (genFold g out (outCount g (topologicalSort g out)) ⟨[], [], 0⟩
      (topologicalSort g out))
    refine genFold_declInv g out _ _ _ ⟨?_, ?_⟩
    · intro e he
      simp at he
    · simp
  refine ⟨d, hd_final_mem, hd_final_vm, ?_, ?_, ?_, ?_⟩
  · exact count_filter_eq_one (fun e => e.idx) (genState g out).decls hinv.2 d hd_final_mem
  · intro Y nY q dflt hYL hlkY hqin hlink
    have hXdepY : X ∈ deps g Y := by
      unfold deps
      rw [hlkY]
      refine List.mem_filterMap.mpr ⟨q, hqin, ?_⟩
      rw [hlink]
      rfl
    have hsubXY : [X, Y].Sublist (topologicalSort g out) := by
      rcases hGood Y hYL X hXdepY with h | h
      · simp at h
      · exact h
    refine ⟨hsubXY, ?_⟩
    intro m1' m2' hsplit'
    have hXin1 : X ∈ m1' := before_split (topologicalSort g out) m1' m2' hND hsubXY hsplit'
    obtain ⟨u, v, huv⟩ := List.append_of_mem hXin1
    have hLuv : topologicalSort g out = u ++ X :: (v ++ Y :: m2') := by
      rw [hsplit', huv]
      simp
    obtain ⟨hu, hv⟩ := nodup_split_unique m1 u m2 (v ++ Y :: m2')
      (by rw [← hsplit]; exact hND) (by rw [← hsplit, hLuv])
    have hXv : X ∉ v := by
      intro hc
      exact hXm2 (by rw [hv]; exact List.mem_append.mpr (Or.inl hc))
    have hpre : genFold g out (outCount g (topologicalSort g out)) ⟨[], [], 0⟩ m1'
        = genFold g out (outCount g (topologicalSort g out))
            (processNode g out (outCount g (topologicalSort g out))
              (genFold g out (outCount g (topologicalSort g out)) ⟨[], [], 0⟩ m1) X) v := by
      rw [huv, genFold_append, ← hu]
    have hlookup : vmLookup
        (genFold g out (outCount g (topologicalSort g out)) ⟨[], [], 0⟩ m1').vm X p
        = some (varNameOf d.idx) := by
      rw [hpre, vmLookup_genFold_stable g out _ v _ X p hXv]
      exact hd_vm
    exact getInputVar_connected nY q _ dflt X p _ hlink hlookup
  · intro q dflt hlinkO
    exact getInputVar_connected (outNodeOf g out) q _ dflt X p _ hlinkO hd_final_vm
  · intro hps m1'' m2'' hsplit''
    obtain ⟨hu, _⟩ := nodup_split_unique m1 m1'' m2 m2''
      (by rw [← hsplit]; exact hND) (by rw [← hsplit, ← hsplit''])
    have hd_eq := hd_single hps
    constructor
    · rw [hd_eq]
    · rw [hd_eq, ← hu]

/-- The claim C2 counterexample graph: a float constant (id 1) whose
output pin feeds two input pins — the output node's Alpha pin and the A
pin of an add node (id 2) that is not connected to the output. -/
def wFanCex : Graph := ⟨[
  ⟨0, .output, [("Alpha", (1, "Value"))]⟩,
  ⟨1, .float "0.250", []⟩,
  ⟨2, .add, [("A", (1, "Value"))]⟩]⟩

/-- Claim C2 counterexample: the constant's output pin feeds N = 2
downstream input pins, yet the generation pass emits no declaration at
all — the generator counts only consumers processed by the resolver, sees
fan-out 1, and inlines the constant — refuting the claim as stated. -/
theorem claim_C2_counterexample :
    fanOutPin wFanCex 1 "Value" = 2 ∧ (genState wFanCex 0).decls = [] :=
  ⟨by decide, by decide⟩

/-- The concrete fan-out graph for the C2 witness: a float constant (id 1)
feeding both input pins of an add node (id 2) whose result feeds the
output's Alpha pin. -/
def wFan : Graph := ⟨[
  ⟨0, .output, [("Alpha", (2, "Result"))]⟩,
  ⟨1, .float "0.500", []⟩,
  ⟨2, .add, [("A", (1, "Value")), ("B", (1, "Value"))]⟩]⟩

/-- Witness for the amended claim C2 on the concrete fan-out graph: the
constant's pin Value, feeding two processed input pins, gets exactly one
declaration referenced by its consumers. -/
theorem claim_C2_witness :
    ∃ d : Decl,
      d ∈ (genState wFan 0).decls ∧
      vmLookup (genState wFan 0).vm 1 "Value" = some (varNameOf d.idx) ∧
      ((genState wFan 0).decls.filter (fun e => e.idx == d.idx)).length = 1 ∧
      (∀ (Y : Nat) (nY : GNode) (q dflt : String),
        Y ∈ topologicalSort wFan 0 → lookupNode wFan Y = some nY →
        q ∈ kindInNames nY.kind → linkOf nY q = some (1, "Value") →
        [1, Y].Sublist (topologicalSort wFan 0) ∧
        ∀ m1 m2, topologicalSort wFan 0 = m1 ++ Y :: m2 →
          getInputVar nY q
              (genFold wFan 0 (outCount wFan (topologicalSort wFan 0)) ⟨[], [], 0⟩ m1).vm dflt
            = varNameOf d.idx) ∧
      (∀ q dflt, linkOf (outNodeOf wFan 0) q = some (1, "Value") →
        getInputVar (outNodeOf wFan 0) q (genState wFan 0).vm dflt = varNameOf d.idx) ∧
      (kindOutNames (NodeKind.float "0.500") = ["Value"] →
        ∀ m1 m2, topologicalSort wFan 0 = m1 ++ 1 :: m2 →
          d.ty = typeToGLSL (getOutputType wFan (wFan.nodes.length + 1)
            ⟨1, .float "0.500", []⟩ "Value") ∧
          d.expr = generateExpression ⟨1, .float "0.500", []⟩ "Value"
            (genFold wFan 0 (outCount wFan (topologicalSort wFan 0)) ⟨[], [], 0⟩ m1).vm) :=
  claim_C2_fanout_hoisting wFan 0
    (fun i => if i = 0 then 2 else if i = 2 then 1 else 0)
    (rank_of_rankOk (by decide)) 1 ⟨1, .float "0.500", []⟩ "Value"
    (by decide) (by decide) (by decide) (by decide)

/-- The concrete scenario graph of claim C9: one float constant with
value 0.25 (printed 0.250 by the fixed three-digit format) feeding the
X, Y and Z pins of a make-vector node connected to the output's Color
pin, and separately the output's Alpha pin; no other links. -/
def wScenario : Graph := ⟨[
  ⟨0, .output, [("Color", (2, "Vec3")), ("Alpha", (1, "Value"))]⟩,
  ⟨1, .float "0.250", []⟩,
  ⟨2, .makeVec3, [("X", (1, "Value")), ("Y", (1, "Value")), ("Z", (1, "Value"))]⟩]⟩

/-- Claim C9 counterexample: on the concrete scenario graph the generator
emits two intermediate variable declarations (the constant is hoisted
because its node-level fan-out is 4, and the make-vector node is not a
source node), so the body is not the claimed declaration-free text. -/
theorem claim_C9_counterexample :
    (genState wScenario 0).decls.length = 2 ∧
    generateShaderBody wScenario 0
      ≠ "    vec3 finalColor = vec3(0.250, 0.250, 0.250);\n    float finalAlpha = 0.250;\n    FragColor = vec4(finalColor, finalAlpha);\n" :=
  ⟨by decide, by decide⟩

/-- Claim C9, amended: on the concrete scenario graph the generated body
assigns a vec3 replicating 0.25 into the color write and 0.25 into the
alpha write, but through two hoisted intermediate variables: the constant
is declared once as v0 (its output feeds four input pins, so the
node-level fan-out count exceeds one) and the make-vector node, not being
a source node, is declared as v1 = vec3(v0, v0, v0); the final statements
read v1 and v0. -/
theorem claim_C9_amended :
    generateShaderBody wScenario 0
      = "    float v0 = 0.250;\n    vec3 v1 = vec3(v0, v0, v0);\n\n    vec3 finalColor = v1;\n    float finalAlpha = v0;\n    FragColor = vec4(finalColor, finalAlpha);\n"
    ∧ fanOutPin wScenario 1 "Value" = 4
    ∧ outCount wScenario (topologicalSort wScenario 0) 1 = 4 :=
  ⟨by decide, by decide, by decide⟩

/-- The concrete graph for the C10 witness: a float constant, then two
parameter nodes sharing the uniform name "k", then the output node. -/
def wParams : Graph := ⟨[
  ⟨1, .float "0.000", []⟩,
  ⟨2, .param ⟨"k", "K one", .float, [1]⟩, []⟩,
  ⟨3, .param ⟨"k", "K two", .float, [2]⟩, []⟩,
  ⟨0, .output, []⟩]⟩

/-- Witness for claim C10: on the concrete graph with two parameter nodes
named "k", only the first receives the new value and the rest of the node
list is unchanged; searching a name with no match leaves the graph
untouched. -/
theorem claim_C10_witness :
    setParameterValue wParams "missing" ⟨"k", "", .float, [7]⟩ = wParams ∧
    (setParameterValue wParams "k" ⟨"k", "", .float, [7]⟩).nodes = [
      ⟨1, .float "0.000", []⟩,
      ⟨2, .param ⟨"k", "K one", .float, [7]⟩, []⟩,
      ⟨3, .param ⟨"k", "K two", .float, [2]⟩, []⟩,
      ⟨0, .output, []⟩] :=
  ⟨(claim_C10_set_parameter wParams "missing" ⟨"k", "", .float, [7]⟩).1 (by decide),
   (claim_C10_set_parameter wParams "k" ⟨"k", "", .float, [7]⟩).2
     [⟨1, .float "0.000", []⟩] ⟨2, .param ⟨"k", "K one", .float, [1]⟩, []⟩
     [⟨3, .param ⟨"k", "K two", .float, [2]⟩, []⟩, ⟨0, .output, []⟩]
     rfl (by decide) (by decide)⟩

end ShaderGraph

